import Mathlib

/-!
# Dataset transformations of fityk (`src/src/transform.cpp`)

A shallow embedding of the dataset-transformation virtual machine and of its
numeric helpers.  The type `realt` (a `double`) is read as the rationals, so
all arithmetic is exact; where the C++ would leave the exact model (an index
outside a container, a failed `assert`, a division by zero) the embedding
stops with a `Fault`.
-/

namespace Fityk

/-! ## Data model -/

/-- One dataset sample `(x, y, sigma, is_active)`; points are ordered by `x` only. -/
@[ext]
structure Point where
  x : ℚ
  y : ℚ
  sigma : ℚ
  is_active : Bool
deriving DecidableEq

instance : Inhabited Point := ⟨⟨0, 0, 0, false⟩⟩

/-- Ways in which the C++ leaves the exact model. -/
inductive Fault where
  /-- an `assert` does not hold -/
  | assert_failed
  /-- an element outside a vector (`pp`, `vm.numbers()`, `vm.code()`) is accessed -/
  | out_of_range
  /-- a slot outside the array `stack[6]` is read or written through `stackPtr` -/
  | slot_out_of_range
  /-- a floating-point division by zero (the result would be an infinity or a NaN) -/
  | division_by_zero
deriving DecidableEq

/-- A point sequence sorted by `x` (equal `x` values may repeat). -/
def SortedByX (pp : List Point) : Prop :=
  List.Pairwise (fun a b : Point => a.x ≤ b.x) pp

instance (pp : List Point) : Decidable (SortedByX pp) := by
  unfold SortedByX; infer_instance

/-- Exact equality of two numbers, the reading of `is_eq` under which the
merge properties are stated. -/
def exact_eq (a b : ℚ) : Bool := decide (a = b)

/-! ## `find_extrapolated_y` -/

/-- The bisection loop of `std::lower_bound` over the index range
`[first, first + len)`, comparing points by `x`; the first argument bounds the
number of iterations (`len` at least halves each time). -/
def lower_bound_loop (pp : List Point) (x : ℚ) : Nat → Nat → Nat → Nat
  | 0, first, _ => first
  | fuel + 1, first, len =>
    if len = 0 then first
    else
      let half := len / 2
      let middle := first + half
      if (pp.getD middle default).x < x then
        lower_bound_loop pp x fuel (middle + 1) (len - half - 1)
      else
        lower_bound_loop pp x fuel first half

/-- The call `lower_bound(pp.begin(), pp.end(), Point(x, 0))`, as an index into `pp`. -/
def lower_bound (pp : List Point) (x : ℚ) : Nat :=
  lower_bound_loop pp x pp.length 0 pp.length

/-- The function `find_extrapolated_y(pp, x)` of `transform.cpp`, lines 22-37.
`is_eq` is the comparison helper declared outside the translated sources. -/
def find_extrapolated_y (is_eq : ℚ → ℚ → Bool) (pp : List Point) (x : ℚ) :
    Except Fault ℚ :=
  match pp with
  | [] => .ok 0
  | p :: ps =>
    let front := p
    let back := (p :: ps).getLast (List.cons_ne_nil p ps)
    if x ≤ front.x then .ok front.y
    else if x ≥ back.x then .ok back.y
    else
      let i := lower_bound (p :: ps) x
      if ¬ (0 < i ∧ i < (p :: ps).length) then .error Fault.assert_failed
      else
        let pi := (p :: ps).getD i default
        let pj := (p :: ps).getD (i - 1) default
        if is_eq x pi.x then .ok pi.y
        else if pi.x - pj.x = 0 then .error Fault.division_by_zero
        else .ok (pj.y + (pi.y - pj.y) * (pi.x - x) / (pi.x - pj.x))

/-! ## `merge_same_x` -/

/-- The four updates `pp[i].x += pp[i+1].x; ...; pp[i].is_active = ... || ...`
of lines 47-50, applied to `a = pp[i]` with `b = pp[i+1]`. -/
def Point.absorb (a b : Point) : Point :=
  { x := a.x + b.x
    y := a.y + b.y
    sigma := a.sigma + b.sigma
    is_active := a.is_active || b.is_active }

/-- The divisions of lines 59-63 by `count_same`: `x` always, `y` and `sigma`
only when `avg` is set. -/
def Point.divide (avg : Bool) (count_same : Nat) (p : Point) : Point :=
  { x := p.x / (count_same : ℚ)
    y := if avg then p.y / (count_same : ℚ) else p.y
    sigma := if avg then p.sigma / (count_same : ℚ) else p.sigma
    is_active := p.is_active }

/-- The loop of `merge_same_x`, lines 43-66.  The first argument is `i + 1` for
the loop variable `i`, which decreases by one on every path through the body
(`continue` and the normal end both reach `--i`); the setting `i = -1` in the
body, followed by `--i`, ends the loop. The remaining arguments are `pp`,
`count_same` and `x0`. -/
def merge_loop (is_eq : ℚ → ℚ → Bool) (avg : Bool) :
    Nat → List Point → Nat → ℚ → List Point
  | 0, pp, _, _ => pp
  | i + 1, pp, count_same, x0 =>
    let x0 := if count_same = 1 then (pp.getD (i + 1) default).x else x0
    if is_eq (pp.getD i default).x x0 then
      let pp := (pp.set i ((pp.getD i default).absorb (pp.getD (i + 1) default))).eraseIdx (i + 1)
      let count_same := count_same + 1
      if 0 < i then
        merge_loop is_eq avg i pp count_same x0
      else
        -- `i = -1`, so `pp[i+1]` is `pp[0]`
        if 1 < count_same then pp.set 0 ((pp.getD 0 default).divide avg count_same)
        else pp
    else
      if 1 < count_same then
        merge_loop is_eq avg i
          (pp.set (i + 1) ((pp.getD (i + 1) default).divide avg count_same)) 1 x0
      else
        merge_loop is_eq avg i pp count_same x0

/-- The function `merge_same_x(pp, avg)` of `transform.cpp`, lines 39-67; the
loop starts at `i = pp.size() - 2`, which is negative (no iteration) for
sequences of fewer than two points.  The `int` variables `i` and `count_same`
are unbounded here (sequences are shorter than `2^31` points). -/
def merge_same_x (is_eq : ℚ → ℚ → Bool) (pp : List Point) (avg : Bool) : List Point :=
  merge_loop is_eq avg (pp.length - 1) pp 1 0

/-! ### Reference grouping, following the wording of the specification -/

/-- One step of the decomposition into runs: a point joins the run that starts
right after it when their `x` agree, and otherwise starts a run of its own. -/
def push_run (p : Point) : List (List Point) → List (List Point)
  | (q :: r) :: rs => if p.x = q.x then (p :: q :: r) :: rs else [p] :: (q :: r) :: rs
  | rs => [p] :: rs

/-- The maximal runs of consecutive points with equal `x`, in the original order. -/
def equal_x_runs (pp : List Point) : List (List Point) :=
  pp.foldr push_run []

/-- The point that stands for one run: the run's `x`, the sums (or, when
averaging, the means) of `y` and of `sigma`, and the disjunction of `is_active`. -/
def merge_run (avg : Bool) (r : List Point) : Point :=
  { x := (r.headD default).x
    y := if avg then (r.map Point.y).sum / (r.length : ℚ) else (r.map Point.y).sum
    sigma := if avg then (r.map Point.sigma).sum / (r.length : ℚ)
             else (r.map Point.sigma).sum
    is_active := r.any Point.is_active }

/-- Reference for `merge_same_x`: one output point per maximal run. -/
def merge_same_x_ref (pp : List Point) (avg : Bool) : List Point :=
  (equal_x_runs pp).map (merge_run avg)

/-! ## `shirley_bg` -/

/-- The inner loop of line 84-85, `for (i = 1; i < n; ++i) PA[i] = PA[i-1] + ...`,
updating `PA` in place from left to right. -/
def shirley_integrate (pp : List Point) (Y PA : List ℚ) (n : Nat) : List ℚ :=
  (List.range' 1 (n - 1)).foldl
    (fun PA i => PA.set i (PA.getD (i - 1) 0 +
      (Y.getD i 0 + Y.getD (i - 1) 0) / 2 *
        ((pp.getD i default).x - (pp.getD (i - 1) default).x)))
    PA

/-- The state in which the iteration of `shirley_bg` ends: the background `B`
and the value of `iter` at the exit (`50` when the loop ran to its end). -/
structure ShirleyExit where
  B : List ℚ
  iter : Nat
deriving DecidableEq

/-- The loop of lines 80-92 of `shirley_bg`; the first argument is the number of
iterations still allowed (`max_iter - iter`).  Dividing by a zero `PA[n-1]` in
line 91 is a `Fault`. -/
def shirley_loop (pp : List Point) (n : Nat) (ya dy : ℚ) :
    Nat → List ℚ → List ℚ → ℚ → Except Fault ShirleyExit
  | 0, B, _, _ => .ok ⟨B, 50⟩
  | left + 1, B, PA, old_A =>
    let Y := (List.range n).map (fun i => (pp.getD i default).y - B.getD i 0)
    let PA := shirley_integrate pp Y PA n
    let rel_diff := if old_A ≠ 0 then |PA.getD (n - 1) 0 - old_A| / old_A else 1
    if rel_diff < 1 / 1000000 then .ok ⟨B, 50 - (left + 1)⟩
    else
      let old_A := PA.getD (n - 1) 0
      if PA.getD (n - 1) 0 = 0 then .error Fault.division_by_zero
      else
        shirley_loop pp n ya dy left
          ((List.range n).map (fun i => ya + dy / PA.getD (n - 1) 0 * PA.getD i 0)) PA old_A

/-- The function `shirley_bg(pp)` of `transform.cpp`, lines 69-95.  On an empty
sequence `pp[0]` lies outside the vector. -/
def shirley_bg (pp : List Point) : Except Fault (List Point) :=
  let n := pp.length
  if n = 0 then .error Fault.out_of_range
  else
    let ya := (pp.getD 0 default).y
    let yb := (pp.getD (n - 1) default).y
    let dy := yb - ya
    match shirley_loop pp n ya dy 50 (List.replicate n ya) (List.replicate n 0) 0 with
    | .error f => .error f
    | .ok e => .ok ((List.range n).map (fun i => { pp.getD i default with y := e.B.getD i 0 }))

/-! ## The stack machine `DatasetTransformer::run_dt` -/

/-- The struct `DtStackItem`, lines 14-20. -/
structure DtStackItem where
  is_num : Bool
  num : ℚ
  points : List Point
  title : String
deriving DecidableEq

instance : Inhabited DtStackItem := ⟨⟨false, 0, [], ""⟩⟩

/-- Modelled from the spec: a dataset of the external provider, of which the
interpreter fetches and replaces the points and the title (class `Data`,
declared outside the translated sources). -/
structure Data where
  points : List Point
  title : String
deriving DecidableEq

instance : Inhabited Data := ⟨⟨[], ""⟩⟩

/-- The `ExecuteError`s of the interpreter, one constructor per message. -/
inductive ExecuteError where
  /-- "stack overflow" -/
  | stack_overflow
  /-- "adding number and dataset" -/
  | adding_number_and_dataset
  /-- "substracting number and dataset" -/
  | substracting_number_and_dataset
  /-- "multiplying two datasets" -/
  | multiplying_two_datasets
  /-- op2str(op) + " is defined only for @n" -/
  | defined_only_for_dataset (op : Int)
  /-- "expected @n on both sides of `and'" -/
  | expected_dataset_on_both_sides
  /-- "op " + op2str(op) + " is not allowed in dataset transformations." -/
  | op_not_allowed (op : Int)
  /-- "dataset or 0 expected on RHS" -/
  | dataset_or_0_expected
  /-- raised by the provider when no dataset has the index -/
  | no_such_dataset (n : Int)
deriving DecidableEq

/-- Why a run stops early: an `ExecuteError` is thrown, or the C++ leaves the
exact model. -/
inductive Stop where
  | error (e : ExecuteError)
  | fault (f : Fault)
deriving DecidableEq

/-- The case labels of the `switch` in `run_dt`; `OP_OTHER` stands for every
opcode that reaches the `default` label. -/
inductive DtOp where
  | OP_NUMBER | OP_DATASET | OP_NEG | OP_ADD | OP_SUB | OP_MUL
  | OP_DT_SUM_SAME_X | OP_DT_AVG_SAME_X | OP_DT_SHIRLEY_BG
  | OP_AND | OP_AFTER_AND | OP_OTHER
deriving DecidableEq

/-- The declarations that `transform.cpp` uses and that lie outside the
translated sources: the comparison `is_eq`, the opcode enumeration (read as the
map from a code word to the case label it selects), the sentinel
`Lexer::kNew`, and the number formatting `S`. -/
structure Ext where
  is_eq : ℚ → ℚ → Bool
  op_of : Int → DtOp
  kNew : Int
  S : ℚ → String

/-- The part of `VMData` read by `run_dt`: the code words and the number pool. -/
structure VMData where
  code : List Int
  numbers : List ℚ

/-- The array `stack[6]` together with `stackPtr`, kept as the index
`stackPtr - stack` (so `-1` before the first push). -/
structure Machine where
  stack : List DtStackItem
  stackPtr : Int

/-- The state of line 103-104: six slots and `stackPtr = stack - 1`.  The fields
`is_num` and `num`, which C++ leaves uninitialised, hold default values; every
push writes them before anything reads them. -/
def Machine.init : Machine :=
  { stack := List.replicate 6 default, stackPtr := -1 }

/-- Reading the slot at index `j` of the six-slot array; an index outside `0..5`
is the fault `slot_out_of_range`.  Every read of a stack slot in `run_dt` goes
through this function. -/
def Machine.slot (m : Machine) (j : Int) : Except Stop DtStackItem :=
  if 0 ≤ j ∧ j < 6 then .ok (m.stack.getD j.toNat default)
  else .error (Stop.fault Fault.slot_out_of_range)

/-- Writing the slot at index `j` of the six-slot array and moving `stackPtr` to
`sp`; an index outside `0..5` is the fault `slot_out_of_range`.  Every write to
a stack slot in `run_dt` goes through this function. -/
def Machine.put (m : Machine) (sp j : Int) (v : DtStackItem) : Except Stop Machine :=
  if 0 ≤ j ∧ j < 6 then .ok { stack := m.stack.set j.toNat v, stackPtr := sp }
  else .error (Stop.fault Fault.slot_out_of_range)

/-- Modelled from the spec: fetch-by-index of the dataset provider (`get_data`
of the session object, declared outside the translated sources).  The spec
names the operation only; an index that denotes no dataset is taken to raise an
error without touching the collection. -/
def get_data (F : List Data) (n : Int) : Except Stop Data :=
  if 0 ≤ n ∧ n < F.length then .ok (F.getD n.toNat default)
  else .error (Stop.error (ExecuteError.no_such_dataset n))

/-- Modelled from the spec: append-new of the dataset provider (`append_dm`),
which adds an empty dataset at the end of the collection. -/
def append_dm (F : List Data) : List Data := F ++ [⟨[], ""⟩]

/-- Modelled from the spec: dataset-count of the provider (`get_dm_count`). -/
def get_dm_count (F : List Data) : Int := (F.length : Int)

/-- Modelled from the spec: replace-points and replace-title of the provider
(`set_points` followed by `set_title`) on the dataset with index `n`. -/
def set_points_title (F : List Data) (n : Int) (points : List Point) (title : String) :
    List Data :=
  F.set n.toNat { points := points, title := title }

/-- Modelled from the spec: clear of the provider (`Data::clear`) on the dataset
with index `n`, which leaves it without points and without title. -/
def clear_data (F : List Data) (n : Int) : List Data :=
  F.set n.toNat { points := [], title := "" }

/-- The order `operator<` of points, by `x` only, in its non-strict form; it
is the order by which `std::sort` arranges a sequence. -/
def Point.le_x (a b : Point) : Prop := a.x ≤ b.x

instance : DecidableRel Point.le_x := fun a b => by unfold Point.le_x; infer_instance

instance : IsTotal Point Point.le_x := ⟨fun a b => le_total a.x b.x⟩

instance : IsTrans Point Point.le_x := ⟨fun _ _ _ h1 h2 => le_trans h1 h2⟩

/-- The call `sort(points.begin(), points.end())`: the sequence arranged by
`x`; points of equal `x`, whose order `std::sort` leaves open, keep their order. -/
def sort_points (pp : List Point) : List Point :=
  List.insertionSort Point.le_x pp

/-- The loops `j->y += find_extrapolated_y(other, j->x)` (sign `1`) and
`j->y -= ...` (sign `-1`) of lines 145-146 and 158-159. -/
def combine_points (is_eq : ℚ → ℚ → Bool) (sign : ℚ) (pp other : List Point) :
    Except Fault (List Point) :=
  pp.mapM (fun j =>
    match find_extrapolated_y is_eq other j.x with
    | .error f => .error f
    | .ok v => .ok { j with y := j.y + sign * v })

/-- The loop `j->y *= mult` of lines 175-176 and 183-184. -/
def scale_points (mult : ℚ) (pp : List Point) : List Point :=
  pp.map (fun j => { j with y := j.y * mult })

/-- The cases of the `switch` that read no operand from the code, applied to
the code word `c` with case label `op`. -/
def exec_op (E : Ext) (c : Int) (op : DtOp) (m : Machine) : Except Stop Machine :=
  match op with
  | .OP_NEG => do
    let a ← m.slot m.stackPtr
    if a.is_num then
      m.put m.stackPtr m.stackPtr { a with num := -a.num }
    else
      m.put m.stackPtr m.stackPtr
        { a with points := a.points.map (fun j => { j with y := -j.y }),
                 title := "-" ++ a.title }
  | .OP_ADD => do
    let sp := m.stackPtr - 1
    let a ← m.slot sp
    let b ← m.slot (sp + 1)
    if a.is_num && b.is_num then
      m.put sp sp { a with num := a.num + b.num }
    else if !a.is_num && !b.is_num then
      match combine_points E.is_eq 1 a.points b.points with
      | .error f => .error (Stop.fault f)
      | .ok pts => m.put sp sp { a with points := pts, title := a.title ++ ("+" ++ b.title) }
    else .error (Stop.error ExecuteError.adding_number_and_dataset)
  | .OP_SUB => do
    let sp := m.stackPtr - 1
    let a ← m.slot sp
    let b ← m.slot (sp + 1)
    if a.is_num && b.is_num then
      m.put sp sp { a with num := a.num - b.num }
    else if !a.is_num && !b.is_num then
      match combine_points E.is_eq (-1) a.points b.points with
      | .error f => .error (Stop.fault f)
      | .ok pts => m.put sp sp { a with points := pts, title := a.title ++ ("-" ++ b.title) }
    else .error (Stop.error ExecuteError.substracting_number_and_dataset)
  | .OP_MUL => do
    let sp := m.stackPtr - 1
    let a ← m.slot sp
    let b ← m.slot (sp + 1)
    if a.is_num && b.is_num then
      m.put sp sp { a with num := a.num * b.num }
    else if !a.is_num && !b.is_num then
      .error (Stop.error ExecuteError.multiplying_two_datasets)
    else if !a.is_num && b.is_num then
      m.put sp sp { a with points := scale_points b.num a.points,
                           title := a.title ++ ("*" ++ E.S b.num) }
    else do
      -- `swap` exchanges the two point vectors
      let m1 ← m.put sp (sp + 1) { b with points := a.points }
      m1.put sp sp { a with is_num := false, points := scale_points a.num b.points,
                            title := E.S a.num ++ "*" ++ b.title }
  | .OP_DT_SUM_SAME_X => do
    let a ← m.slot m.stackPtr
    if a.is_num then .error (Stop.error (ExecuteError.defined_only_for_dataset c))
    else m.put m.stackPtr m.stackPtr { a with points := merge_same_x E.is_eq a.points false }
  | .OP_DT_AVG_SAME_X => do
    let a ← m.slot m.stackPtr
    if a.is_num then .error (Stop.error (ExecuteError.defined_only_for_dataset c))
    else m.put m.stackPtr m.stackPtr { a with points := merge_same_x E.is_eq a.points true }
  | .OP_DT_SHIRLEY_BG => do
    let a ← m.slot m.stackPtr
    if a.is_num then .error (Stop.error (ExecuteError.defined_only_for_dataset c))
    else
      match shirley_bg a.points with
      | .error f => .error (Stop.fault f)
      | .ok pts => m.put m.stackPtr m.stackPtr { a with points := pts }
  | .OP_AND => .ok m
  | .OP_AFTER_AND => do
    let sp := m.stackPtr - 1
    let a ← m.slot sp
    let b ← m.slot (sp + 1)
    if a.is_num || b.is_num then
      .error (Stop.error ExecuteError.expected_dataset_on_both_sides)
    else
      m.put sp sp { a with points := sort_points (a.points ++ b.points),
                           title := a.title ++ ("&" ++ b.title) }
  | _ => .error (Stop.error (ExecuteError.op_not_allowed c))

/-- The case `OP_NUMBER`, lines 109-116, with the code word `idx` that follows
the opcode (`none` when the code ends there). -/
def exec_number (numbers : List ℚ) (m : Machine) (operand : Option Int) :
    Except Stop Machine :=
  let sp := m.stackPtr + 1
  if sp ≥ 6 then .error (Stop.error ExecuteError.stack_overflow)
  else
    match operand with
    | none => .error (Stop.fault Fault.out_of_range)
    | some idx =>
      if 0 ≤ idx ∧ idx < numbers.length then do
        let a ← m.slot sp
        m.put sp sp { a with is_num := true, num := numbers.getD idx.toNat 0 }
      else .error (Stop.fault Fault.out_of_range)

/-- The case `OP_DATASET`, lines 118-128, with the code word `idx` that follows
the opcode (`none` when the code ends there). -/
def exec_dataset (F : List Data) (m : Machine) (operand : Option Int) :
    Except Stop Machine :=
  let sp := m.stackPtr + 1
  if sp ≥ 6 then .error (Stop.error ExecuteError.stack_overflow)
  else
    match operand with
    | none => .error (Stop.fault Fault.out_of_range)
    | some idx => do
      let a ← m.slot sp
      let d ← get_data F idx
      m.put sp sp { a with is_num := false, points := d.points,
                           title := if d.title = "" then "nt" else d.title }

/-- The loop `v_foreach (int, i, vm.code())` of lines 106-226 over the code
words still to be read. -/
def run_code (E : Ext) (F : List Data) (numbers : List ℚ) :
    Machine → List Int → Except Stop Machine
  | m, [] => .ok m
  | m, [c] =>
    match E.op_of c with
    | .OP_NUMBER => exec_number numbers m none
    | .OP_DATASET => exec_dataset F m none
    | op => exec_op E c op m
  | m, c :: idx :: rest =>
    match E.op_of c with
    | .OP_NUMBER =>
      match exec_number numbers m (some idx) with
      | .error e => .error e
      | .ok m1 => run_code E F numbers m1 rest
    | .OP_DATASET =>
      match exec_dataset F m (some idx) with
      | .error e => .error e
      | .ok m1 => run_code E F numbers m1 rest
    | op =>
      match exec_op E c op m with
      | .error e => .error e
      | .ok m1 => run_code E F numbers m1 (idx :: rest)

/-- How a call of `run_dt` ends. -/
inductive Outcome where
  | done
  | stopped (s : Stop)
deriving DecidableEq

/-- The final part of `run_dt`, lines 229-242 ("change dataset `out'"), with
`top` the stack item that `stackPtr` points to. -/
def commit (E : Ext) (out : Int) (F : List Data) (top : DtStackItem) : Outcome × List Data :=
  let F1 := if out = E.kNew then append_dm F else F
  let out1 := if out = E.kNew then get_dm_count (append_dm F) - 1 else out
  match get_data F1 out1 with
  | .error s => (Outcome.stopped s, F1)
  | .ok _ =>
    if !top.is_num then (Outcome.done, set_points_title F1 out1 top.points top.title)
    else if top.num = 0 then (Outcome.done, clear_data F1 out1)
    else (Outcome.stopped (Stop.error ExecuteError.dataset_or_0_expected), F1)

/-- The method `DatasetTransformer::run_dt(vm, out)`, lines 101-243, on the
dataset collection `F`; the result is how the call ends and the collection
it leaves behind. -/
def run_dt (E : Ext) (vm : VMData) (out : Int) (F : List Data) : Outcome × List Data :=
  match run_code E F vm.numbers Machine.init vm.code with
  | .error s => (Outcome.stopped s, F)
  | .ok m =>
    if m.stackPtr ≠ 0 then (Outcome.stopped (Stop.fault Fault.assert_failed), F)
    else commit E out F (m.stack.getD 0 default)

/-- A sample numbering of the opcodes, in the order of the case labels, for
evaluating concrete programs. -/
def sample_op_of (c : Int) : DtOp :=
  if c = 0 then .OP_NUMBER else if c = 1 then .OP_DATASET else if c = 2 then .OP_NEG
  else if c = 3 then .OP_ADD else if c = 4 then .OP_SUB else if c = 5 then .OP_MUL
  else if c = 6 then .OP_DT_SUM_SAME_X else if c = 7 then .OP_DT_AVG_SAME_X
  else if c = 8 then .OP_DT_SHIRLEY_BG else if c = 9 then .OP_AND
  else if c = 10 then .OP_AFTER_AND else .OP_OTHER

/-- A sample choice of the external declarations: exact comparison, the sample
numbering, `-1` as the create-new sentinel and a fraction-style formatting. -/
def sample_ext : Ext :=
  { is_eq := exact_eq
    op_of := sample_op_of
    kNew := -1
    S := fun q => toString q.num ++ "/" ++ toString q.den }

/-! ### Live values needed by the opcodes -/

/-- The number of live stack values the case for `op` works on: one for the
unary opcodes, two for the binary ones, none for the pushes, for `and` and for
the default case. -/
def op_arity : DtOp → Int
  | .OP_NEG | .OP_DT_SUM_SAME_X | .OP_DT_AVG_SAME_X | .OP_DT_SHIRLEY_BG => 1
  | .OP_ADD | .OP_SUB | .OP_MUL | .OP_AFTER_AND => 2
  | _ => 0

/-! ### Auxiliary descriptions of the loop state -/

/-- The point into which the loop has folded a run: the first point after it
has absorbed, from right to left, all later points of the run. -/
def run_acc : List Point → Point
  | [] => default
  | [a] => a
  | a :: b :: r => a.absorb (run_acc (b :: r))

/-- The point the loop leaves for a run once the run is complete: runs of more
than one point are divided by their length, single points are left untouched. -/
def fin_run (avg : Bool) (r : List Point) : Point :=
  if 1 < r.length then (run_acc r).divide avg r.length else run_acc r

/-- The `x` with which the loop compares while it extends a run: `x0` is taken
from the run's last point, the first one the backward sweep meets. -/
def run_anchor (r : List Point) : ℚ := (r.getLastD default).x

/-- One step of the sweep as the loop performs it with an arbitrary `is_eq`: a
point joins the run to its right when `is_eq` relates its `x` to the run's anchor. -/
def push_run_by (is_eq : ℚ → ℚ → Bool) (p : Point) : List (List Point) → List (List Point)
  | r :: rs => if is_eq p.x (run_anchor r) then (p :: r) :: rs else [p] :: r :: rs
  | [] => [[p]]

/-- The runs into which the loop divides a sequence under an arbitrary `is_eq`. -/
def runs_by (is_eq : ℚ → ℚ → Bool) (pp : List Point) : List (List Point) :=
  pp.foldr (push_run_by is_eq) []

/-- Comparison up to a tolerance `eps`; `eps = 0` is exact equality. -/
def tol_eq (eps : ℚ) (a b : ℚ) : Bool := decide (|a - b| ≤ eps)

/-- A run formed under tolerance `eps` from a sorted sequence: non-empty, with
every `x` between the anchor minus `eps` and the anchor. -/
def RunTol (eps : ℚ) (r : List Point) : Prop :=
  r ≠ [] ∧ ∀ q ∈ r, run_anchor r - eps ≤ q.x ∧ q.x ≤ run_anchor r

/-- Neighbouring runs formed under tolerance `eps` from a sorted sequence: the
left anchor lies more than `eps` below the right anchor. -/
def RunsApart (eps : ℚ) (rs : List (List Point)) : Prop :=
  List.Chain' (fun r s : List Point => run_anchor r < run_anchor s - eps) rs

/-- A well-formed run: non-empty, and all its points share the `x` of its first point. -/
def RunOK (r : List Point) : Prop :=
  r ≠ [] ∧ ∀ q ∈ r, q.x = (r.headD default).x

/-- Neighbouring runs start at different `x`. -/
def RunsDiffer (rs : List (List Point)) : Prop :=
  List.Chain' (fun r s : List Point => (r.headD default).x ≠ (s.headD default).x) rs

/-- Neighbouring runs start at increasing `x`. -/
def RunsAscend (rs : List (List Point)) : Prop :=
  List.Chain' (fun r s : List Point => (r.headD default).x < (s.headD default).x) rs

/-- Strictly increasing `x` values along a point sequence. -/
def StrictByX (pp : List Point) : Prop :=
  List.Pairwise (fun a b : Point => a.x < b.x) pp

/-! ## Double arithmetic -/

/-- The integer nearest to `r`, the even one of the two nearest when `r` lies
half-way between them (the default rounding direction of IEEE 754). -/
def round_half_even (r : ℚ) : ℤ :=
  if r - ⌊r⌋ < 1 / 2 then ⌊r⌋
  else if 1 / 2 < r - ⌊r⌋ then ⌊r⌋ + 1
  else if ⌊r⌋ % 2 = 0 then ⌊r⌋ else ⌊r⌋ + 1

/-- The `double` (IEEE 754 binary64) nearest to the number `q`, ties to even: 53
significant bits for magnitudes from `2 ^ (-1022)` on, multiples of
`2 ^ (-1074)` below.  A magnitude beyond the largest finite `double`, which the
hardware turns into an infinity, is rounded like the others and so lies
outside what this function describes. -/
def binary64 (q : ℚ) : ℚ :=
  if q = 0 then 0
  else
    let e := max (Int.log 2 |q|) (-1022)
    (round_half_even (q / 2 ^ (e - 52)) : ℚ) * 2 ^ (e - 52)

/-! ### `merge_same_x` and `shirley_bg` with rounded operations

The definitions above compute with exact numbers.  The ones below are the same
functions with the result of every arithmetic operation on a `double` passed
through a rounding `rnd`: with `rnd = binary64` this is the arithmetic of the
C++ (each operation rounded once, nothing fused), with `rnd = id` it is the
exact arithmetic of the definitions above. -/

/-- The updates of lines 47-50 with rounded sums. -/
def Point.absorb_fl (rnd : ℚ → ℚ) (a b : Point) : Point :=
  { x := rnd (a.x + b.x)
    y := rnd (a.y + b.y)
    sigma := rnd (a.sigma + b.sigma)
    is_active := a.is_active || b.is_active }

/-- The divisions of lines 59-63 with rounded quotients (`count_same` converts
to a `double` without rounding). -/
def Point.divide_fl (rnd : ℚ → ℚ) (avg : Bool) (count_same : Nat) (p : Point) : Point :=
  { x := rnd (p.x / (count_same : ℚ))
    y := if avg then rnd (p.y / (count_same : ℚ)) else p.y
    sigma := if avg then rnd (p.sigma / (count_same : ℚ)) else p.sigma
    is_active := p.is_active }

/-- The loop of `merge_same_x`, lines 43-66, with rounded operations; the
arguments are those of `merge_loop`. -/
def merge_loop_fl (rnd : ℚ → ℚ) (is_eq : ℚ → ℚ → Bool) (avg : Bool) :
    Nat → List Point → Nat → ℚ → List Point
  | 0, pp, _, _ => pp
  | i + 1, pp, count_same, x0 =>
    let x0 := if count_same = 1 then (pp.getD (i + 1) default).x else x0
    if is_eq (pp.getD i default).x x0 then
      let pp := (pp.set i ((pp.getD i default).absorb_fl rnd
        (pp.getD (i + 1) default))).eraseIdx (i + 1)
      let count_same := count_same + 1
      if 0 < i then
        merge_loop_fl rnd is_eq avg i pp count_same x0
      else
        if 1 < count_same then pp.set 0 ((pp.getD 0 default).divide_fl rnd avg count_same)
        else pp
    else
      if 1 < count_same then
        merge_loop_fl rnd is_eq avg i
          (pp.set (i + 1) ((pp.getD (i + 1) default).divide_fl rnd avg count_same)) 1 x0
      else
        merge_loop_fl rnd is_eq avg i pp count_same x0

/-- The function `merge_same_x(pp, avg)`, lines 39-67, with rounded operations. -/
def merge_same_x_fl (rnd : ℚ → ℚ) (is_eq : ℚ → ℚ → Bool) (pp : List Point) (avg : Bool) :
    List Point :=
  merge_loop_fl rnd is_eq avg (pp.length - 1) pp 1 0

theorem sortedByX_getD_le {pp : List Point} (hs : SortedByX pp) {i j : Nat}
    (hij : i ≤ j) (hj : j < pp.length) :
    (pp.getD i default).x ≤ (pp.getD j default).x := by
  rw [List.getD_eq_getElem pp default hj,
    List.getD_eq_getElem pp default (lt_of_le_of_lt hij hj)]
  rcases Nat.eq_or_lt_of_le hij with h | h
  · subst h; exact le_refl _
  · exact (List.pairwise_iff_getElem.mp hs) i j _ hj h

/-- On a sorted sequence the bisection returns the partition point of the
range it is given: every point before the result has `x` below the query and
every point from the result on has `x` at least the query. -/
theorem lower_bound_loop_spec {pp : List Point} (hs : SortedByX pp) (x : ℚ) :
    ∀ (fuel first len : Nat), len ≤ fuel → first + len ≤ pp.length →
      (∀ j, j < first → (pp.getD j default).x < x) →
      (∀ j, first + len ≤ j → j < pp.length → x ≤ (pp.getD j default).x) →
      first ≤ lower_bound_loop pp x fuel first len ∧
      lower_bound_loop pp x fuel first len ≤ first + len ∧
      (∀ j, j < lower_bound_loop pp x fuel first len → (pp.getD j default).x < x) ∧
      (∀ j, lower_bound_loop pp x fuel first len ≤ j → j < pp.length →
        x ≤ (pp.getD j default).x) := by
  intro fuel
  induction fuel with
  | zero =>
    intro first len hlen _ hlo hhi
    have h0 : len = 0 := Nat.le_zero.mp hlen
    subst h0
    simp only [lower_bound_loop]
    exact ⟨le_refl _, Nat.le_add_right _ _, hlo, hhi⟩
  | succ fuel ih =>
    intro first len hlen hbound hlo hhi
    by_cases h0 : len = 0
    · subst h0
      simp only [lower_bound_loop, if_true]
      exact ⟨le_refl _, Nat.le_add_right _ _, hlo, hhi⟩
    · have hhalf : len / 2 < len := Nat.div_lt_self (Nat.pos_of_ne_zero h0) (by decide)
      have hmid : first + len / 2 < pp.length := by omega
      by_cases hc : (pp.getD (first + len / 2) default).x < x
      · have hrec := ih (first + len / 2 + 1) (len - len / 2 - 1) (by omega) (by omega)
          (fun j hj => lt_of_le_of_lt (sortedByX_getD_le hs (by omega) hmid) hc)
          (fun j hj hjl => hhi j (by omega) hjl)
        simp only [lower_bound_loop, h0, if_false, hc, if_true]
        refine ⟨by omega, by omega, hrec.2.2.1, hrec.2.2.2⟩
      · have hrec := ih first (len / 2) (by omega) (by omega) hlo
          (fun j hj hjl => le_trans (not_lt.mp hc) (sortedByX_getD_le hs hj hjl))
        simp only [lower_bound_loop, h0, if_false, hc]
        refine ⟨hrec.1, by omega, hrec.2.2.1, hrec.2.2.2⟩

theorem lower_bound_spec {pp : List Point} (hs : SortedByX pp) (x : ℚ) :
    lower_bound pp x ≤ pp.length ∧
    (∀ j, j < lower_bound pp x → (pp.getD j default).x < x) ∧
    (∀ j, lower_bound pp x ≤ j → j < pp.length → x ≤ (pp.getD j default).x) := by
  have h := lower_bound_loop_spec hs x pp.length 0 pp.length (le_refl _) (by omega)
    (fun j hj => absurd hj (Nat.not_lt_zero j)) (fun j hj hjl => by omega)
  refine ⟨?_, h.2.2.1, h.2.2.2⟩
  have := h.2.1
  simpa [lower_bound] using this

/-- Strictly between the first and the last `x` of a sorted sequence the search
lands strictly inside the sequence. -/
theorem lower_bound_inside {pp : List Point} (hs : SortedByX pp) (x : ℚ)
    (hfront : (pp.getD 0 default).x < x)
    (hback : x < (pp.getD (pp.length - 1) default).x) (hlen : 0 < pp.length) :
    0 < lower_bound pp x ∧ lower_bound pp x < pp.length := by
  obtain ⟨hle, hlo, hhi⟩ := lower_bound_spec hs x
  constructor
  · by_contra h0
    have h0' : lower_bound pp x = 0 := by omega
    have := hhi 0 (by omega) hlen
    exact absurd hfront (not_lt.mpr this)
  · by_contra hn
    have hn' : lower_bound pp x = pp.length := by omega
    have := hlo (pp.length - 1) (by omega)
    exact absurd hback (not_lt.mpr (le_of_lt this))

theorem getLast_cons_eq_getD (p : Point) (ps : List Point) :
    (p :: ps).getLast (List.cons_ne_nil p ps) =
      (p :: ps).getD ((p :: ps).length - 1) default := by
  rw [List.getLast_eq_getElem, List.getD_eq_getElem]

/-! ### `find_extrapolated_y`: clamping, exact hits, interpolation -/

/-- What the function computes strictly inside a sorted sequence: with `i` the
partition point of the query, the `y` of point `i` on an `is_eq` hit and
otherwise the value of the source's interpolation expression. -/
theorem find_extrapolated_y_inside (is_eq : ℚ → ℚ → Bool) (p : Point) (ps : List Point)
    (x : ℚ) (hs : SortedByX (p :: ps)) (hfront : p.x < x)
    (hback : x < ((p :: ps).getD ((p :: ps).length - 1) default).x) :
    find_extrapolated_y is_eq (p :: ps) x =
      (let pi := (p :: ps).getD (lower_bound (p :: ps) x) default
       let pj := (p :: ps).getD (lower_bound (p :: ps) x - 1) default
       if is_eq x pi.x then .ok pi.y
       else .ok (pj.y + (pi.y - pj.y) * (pi.x - x) / (pi.x - pj.x))) := by
  have hin := lower_bound_inside hs x (by simpa using hfront) hback (by simp)
  obtain ⟨hle, hlo, hhi⟩ := lower_bound_spec hs x
  have h1 : ¬ x ≤ p.x := not_le.mpr hfront
  have h2 : ¬ x ≥ ((p :: ps).getLast (List.cons_ne_nil p ps)).x := by
    rw [getLast_cons_eq_getD]; exact not_le.mpr hback
  have hj := hlo (lower_bound (p :: ps) x - 1) (by omega)
  have hi := hhi (lower_bound (p :: ps) x) (le_refl _) hin.2
  have hden : ¬ ((p :: ps).getD (lower_bound (p :: ps) x) default).x -
      ((p :: ps).getD (lower_bound (p :: ps) x - 1) default).x = 0 := by
    intro h; linarith
  simp only [find_extrapolated_y, h1, h2, if_false, hin.1, hin.2, and_self, not_true_eq_false,
    hden]

/-- Between two adjacent points `(x0, y0)` and `(x1, y1)` of a sorted sequence
the function returns `y0 + (y1 - y0) * (x1 - x) / (x1 - x0)` (or `y1` on an
`is_eq` hit): the weight is the distance to the right neighbour. -/
theorem find_extrapolated_y_between (is_eq : ℚ → ℚ → Bool) (pp : List Point) (x : ℚ)
    (hs : SortedByX pp) (k : Nat) (hk : k + 1 < pp.length)
    (h0 : (pp.getD k default).x < x) (h1 : x < (pp.getD (k + 1) default).x) :
    find_extrapolated_y is_eq pp x =
      (if is_eq x (pp.getD (k + 1) default).x then .ok (pp.getD (k + 1) default).y
       else .ok ((pp.getD k default).y +
          ((pp.getD (k + 1) default).y - (pp.getD k default).y) *
            ((pp.getD (k + 1) default).x - x) /
            ((pp.getD (k + 1) default).x - (pp.getD k default).x))) := by
  obtain ⟨hle, hlo, hhi⟩ := lower_bound_spec hs x
  have hlb : lower_bound pp x = k + 1 := by
    by_contra hne
    rcases Nat.lt_or_gt_of_ne hne with h | h
    · have := hhi k (by omega) (by omega)
      exact absurd h0 (not_lt.mpr this)
    · have := hlo (k + 1) h
      exact absurd h1 (not_lt.mpr (le_of_lt this))
  cases pp with
  | nil => simp at hk
  | cons p ps =>
    have hfront : p.x < x :=
      lt_of_le_of_lt (by simpa using sortedByX_getD_le hs (Nat.zero_le k) (by omega)) h0
    have hback : x < ((p :: ps).getD ((p :: ps).length - 1) default).x :=
      lt_of_lt_of_le h1 (sortedByX_getD_le hs (by simp at hk ⊢; omega) (by simp))
    rw [find_extrapolated_y_inside is_eq p ps x hs hfront hback, hlb]
    simp

/-- C1 (evaluation at the failing input): on the sorted sequence `(0,0), (4,4)`
and the query `x = 1`, which lies strictly between the two adjacent points,
`find_extrapolated_y` returns `3`, whereas the linear interpolant
`y0 + (y1 - y0) * (x - x0) / (x1 - x0)` through the pair is `1`; whatever
`is_eq` is, the result is never that interpolant. -/
theorem find_extrapolated_y_mirrored_at_one :
    SortedByX [⟨0, 0, 1, true⟩, ⟨4, 4, 1, true⟩] ∧
    find_extrapolated_y exact_eq [⟨0, 0, 1, true⟩, ⟨4, 4, 1, true⟩] 1 = .ok 3 ∧
    ((0 : ℚ) + (4 - 0) * (1 - 0) / (4 - 0) = 1) ∧
    (∀ is_eq : ℚ → ℚ → Bool,
      find_extrapolated_y is_eq [⟨0, 0, 1, true⟩, ⟨4, 4, 1, true⟩] 1 ≠
        .ok ((0 : ℚ) + (4 - 0) * (1 - 0) / (4 - 0))) := by
  refine ⟨by simp [SortedByX], ?_, by norm_num, ?_⟩
  · simp [find_extrapolated_y, lower_bound, lower_bound_loop, exact_eq]
    norm_num
  · intro is_eq
    by_cases h : is_eq 1 4 = true
    · simp [find_extrapolated_y, lower_bound, lower_bound_loop, h]
      norm_num
    · simp [find_extrapolated_y, lower_bound, lower_bound_loop, h]
      norm_num

/-- C2 (counterexample): on the sorted, non-empty sequence `(1,10), (1,20)` and
the query `x = 1`, which is at least the last `x`, the function returns the
first point's `y = 10`, not the last point's `y = 20`. -/
theorem find_extrapolated_y_last_clamp_fails :
    SortedByX [⟨1, 10, 1, true⟩, ⟨1, 20, 1, true⟩] ∧
    (1 : ℚ) ≥ (([⟨1, 10, 1, true⟩, ⟨1, 20, 1, true⟩] : List Point).getLast
      (List.cons_ne_nil _ _)).x ∧
    find_extrapolated_y exact_eq [⟨1, 10, 1, true⟩, ⟨1, 20, 1, true⟩] 1 = .ok 10 ∧
    find_extrapolated_y exact_eq [⟨1, 10, 1, true⟩, ⟨1, 20, 1, true⟩] 1 ≠
      .ok (([⟨1, 10, 1, true⟩, ⟨1, 20, 1, true⟩] : List Point).getLast
        (List.cons_ne_nil _ _)).y := by
  refine ⟨by simp [SortedByX], by simp, ?_, ?_⟩ <;>
    simp [find_extrapolated_y]

/-- C2 (amended): for every non-empty point sequence `P` and every query `x`,
if `x ≤ P.first.x` the function returns `P.first.y`, and if `x ≥ P.last.x` and
`x` is not also `≤ P.first.x` it returns `P.last.y` (the first test wins when
both hold). -/
theorem find_extrapolated_y_clamp (is_eq : ℚ → ℚ → Bool) (pp : List Point) (x : ℚ)
    (hne : pp ≠ []) :
    (x ≤ (pp.head hne).x → find_extrapolated_y is_eq pp x = .ok (pp.head hne).y) ∧
    ((pp.head hne).x < x → x ≥ (pp.getLast hne).x →
      find_extrapolated_y is_eq pp x = .ok (pp.getLast hne).y) := by
  cases pp with
  | nil => exact absurd rfl hne
  | cons p ps =>
    constructor
    · intro h
      have h' : x ≤ p.x := h
      simp only [find_extrapolated_y, List.head_cons, h', if_true]
    · intro h1 h2
      have h1' : ¬ x ≤ p.x := not_le.mpr h1
      simp only [find_extrapolated_y, h1', if_false, h2, if_true]

/-- Witness for C2 (amended): on `(3,10), (5,20)` the query `3` returns `10` and
the query `7` returns `20`. -/
theorem find_extrapolated_y_clamp_witness :
    ((3 : ℚ) ≤ 3 ∧
      find_extrapolated_y exact_eq [⟨3, 10, 1, true⟩, ⟨5, 20, 1, true⟩] 3 = .ok 10) ∧
    ((3 : ℚ) < 7 ∧ (7 : ℚ) ≥ 5 ∧
      find_extrapolated_y exact_eq [⟨3, 10, 1, true⟩, ⟨5, 20, 1, true⟩] 7 = .ok 20) :=
  ⟨⟨le_refl _,
    (find_extrapolated_y_clamp exact_eq [⟨3, 10, 1, true⟩, ⟨5, 20, 1, true⟩] 3
      (List.cons_ne_nil _ _)).1 (le_refl _)⟩,
   ⟨by norm_num, by norm_num,
    (find_extrapolated_y_clamp exact_eq [⟨3, 10, 1, true⟩, ⟨5, 20, 1, true⟩] 7
      (List.cons_ne_nil _ _)).2 (by norm_num) (by norm_num)⟩⟩

/-- C3 (counterexample): in the sorted sequence `(1,10), (1,20)` the point
`p = (1,20)` occurs, yet the query `p.x = 1` returns `10`, the `y` of the other
point with the same `x`. -/
theorem find_extrapolated_y_duplicate_x :
    SortedByX [⟨1, 10, 1, true⟩, ⟨1, 20, 1, true⟩] ∧
    (⟨1, 20, 1, true⟩ : Point) ∈ [(⟨1, 10, 1, true⟩ : Point), ⟨1, 20, 1, true⟩] ∧
    find_extrapolated_y exact_eq [⟨1, 10, 1, true⟩, ⟨1, 20, 1, true⟩]
      (⟨1, 20, 1, true⟩ : Point).x ≠ .ok (⟨1, 20, 1, true⟩ : Point).y := by
  refine ⟨by simp [SortedByX], by simp, ?_⟩
  simp [find_extrapolated_y]

/-- C3 (amended): for every point sequence `P` sorted by `x` and every point `p`
occurring in `P` such that all points of `P` with `p`'s `x` carry `p`'s `y`
(in particular when no other point shares `p.x`), `find_extrapolated_y(P, p.x)`
returns exactly `p.y`, provided `is_eq` holds of equal numbers. -/
theorem find_extrapolated_y_exact_hit (is_eq : ℚ → ℚ → Bool) (hrefl : ∀ a, is_eq a a = true)
    (pp : List Point) (hs : SortedByX pp) (p : Point) (hp : p ∈ pp)
    (huniq : ∀ q ∈ pp, q.x = p.x → q.y = p.y) :
    find_extrapolated_y is_eq pp p.x = .ok p.y := by
  obtain ⟨k, hk, hkp⟩ := List.mem_iff_getElem.mp hp
  have hkD : pp.getD k default = p := by rw [List.getD_eq_getElem pp default hk]; exact hkp
  cases pp with
  | nil => simp at hk
  | cons q qs =>
    have hlast : (q :: qs).length - 1 < (q :: qs).length := by simp
    by_cases h1 : p.x ≤ q.x
    · have hq : q.x ≤ p.x := by
        have := sortedByX_getD_le hs (Nat.zero_le k) hk
        rw [hkD] at this; simpa using this
      have hy := huniq q (by simp) (le_antisymm hq h1)
      simp only [find_extrapolated_y, h1, if_true, hy]
    · by_cases h2 : p.x ≥ ((q :: qs).getLast (List.cons_ne_nil q qs)).x
      · have hb : p.x ≤ ((q :: qs).getLast (List.cons_ne_nil q qs)).x := by
          have := sortedByX_getD_le hs (Nat.le_sub_one_of_lt hk) hlast
          rw [hkD, ← getLast_cons_eq_getD] at this; exact this
        have hy := huniq _ (List.getLast_mem (List.cons_ne_nil q qs)) (le_antisymm h2 hb)
        simp only [find_extrapolated_y, h1, if_false, h2, if_true, hy]
      · have hfront : q.x < p.x := not_le.mp h1
        have hback : p.x < ((q :: qs).getD ((q :: qs).length - 1) default).x := by
          rw [← getLast_cons_eq_getD]; exact not_le.mp h2
        obtain ⟨hle, hlo, hhi⟩ := lower_bound_spec hs p.x
        have hin := lower_bound_inside hs p.x (by simpa using hfront) hback (by simp)
        have hik : lower_bound (q :: qs) p.x ≤ k := by
          by_contra hlt
          have := hlo k (by omega)
          rw [hkD] at this
          exact absurd this (lt_irrefl _)
        have hx : ((q :: qs).getD (lower_bound (q :: qs) p.x) default).x = p.x := by
          apply le_antisymm
          · have := sortedByX_getD_le hs hik hk
            rw [hkD] at this; exact this
          · exact hhi _ (le_refl _) hin.2
        have hmem : (q :: qs).getD (lower_bound (q :: qs) p.x) default ∈ q :: qs := by
          rw [List.getD_eq_getElem _ default hin.2]; exact List.getElem_mem _
        have hy := huniq _ hmem hx
        rw [find_extrapolated_y_inside is_eq q qs p.x hs hfront hback]
        simp only [hx, hrefl, if_true, hy]

/-- Witness for C3 (amended): on `(0,0), (2,7), (4,4)` the query `2` returns `7`. -/
theorem find_extrapolated_y_exact_hit_witness :
    SortedByX [⟨0, 0, 1, true⟩, ⟨2, 7, 1, true⟩, ⟨4, 4, 1, true⟩] ∧
    find_extrapolated_y exact_eq [⟨0, 0, 1, true⟩, ⟨2, 7, 1, true⟩, ⟨4, 4, 1, true⟩] 2 =
      .ok 7 :=
  ⟨by norm_num [SortedByX],
   find_extrapolated_y_exact_hit exact_eq (by simp [exact_eq])
    [⟨0, 0, 1, true⟩, ⟨2, 7, 1, true⟩, ⟨4, 4, 1, true⟩] (by norm_num [SortedByX])
    ⟨2, 7, 1, true⟩ (by simp) (by simp)⟩

/-! ### `merge_same_x`: the loop against the reference grouping -/

theorem getD_append_here (pre : List Point) (a : Point) (t : List Point) :
    (pre ++ a :: t).getD pre.length default = a := by
  induction pre with
  | nil => simp
  | cons q pre ih => simpa using ih

theorem getD_append_next (pre : List Point) (a b : Point) (t : List Point) :
    (pre ++ a :: b :: t).getD (pre.length + 1) default = b := by
  induction pre with
  | nil => simp
  | cons q pre ih => simpa using ih

theorem set_append_here (pre : List Point) (a v : Point) (t : List Point) :
    (pre ++ a :: t).set pre.length v = pre ++ v :: t := by
  induction pre with
  | nil => simp
  | cons q pre ih => simp

theorem set_append_next (pre : List Point) (a b v : Point) (t : List Point) :
    (pre ++ a :: b :: t).set (pre.length + 1) v = pre ++ a :: v :: t := by
  induction pre with
  | nil => simp
  | cons q pre ih => simp

theorem eraseIdx_append_next (pre : List Point) (a b : Point) (t : List Point) :
    (pre ++ a :: b :: t).eraseIdx (pre.length + 1) = pre ++ a :: t := by
  induction pre with
  | nil => simp
  | cons q pre ih => simpa using ih

theorem run_acc_cons (p : Point) {r : List Point} (hr : r ≠ []) :
    run_acc (p :: r) = p.absorb (run_acc r) := by
  cases r with
  | nil => exact absurd rfl hr
  | cons b r => rfl

theorem push_run_eq (p : Point) {r : List Point} (rs : List (List Point)) (hr : r ≠ [])
    (h : p.x = (r.headD default).x) : push_run p (r :: rs) = (p :: r) :: rs := by
  cases r with
  | nil => exact absurd rfl hr
  | cons b r => simp only [List.headD_cons] at h; simp [push_run, h]

theorem push_run_ne (p : Point) {r : List Point} (rs : List (List Point))
    (h : p.x ≠ (r.headD default).x) : push_run p (r :: rs) = [p] :: r :: rs := by
  cases r with
  | nil => simp [push_run]
  | cons b r => simp only [List.headD_cons] at h; simp [push_run, h]

theorem run_anchor_singleton (a : Point) : run_anchor [a] = a.x := rfl

theorem run_anchor_cons (p : Point) {r : List Point} (hr : r ≠ []) :
    run_anchor (p :: r) = run_anchor r := by
  cases r with
  | nil => exact absurd rfl hr
  | cons b r => simp [run_anchor]

/-- Loop invariant of `merge_same_x`, for any `is_eq`.  When the loop is about
to visit the last point of `pre`, the current run `r` is folded into one point
standing right after `pre`, followed by the finished runs `rs`, and `x0` is the
anchor of `r` once `r` has more than one point; the loop then delivers the
finished runs of the whole sequence. -/
theorem merge_loop_runs (is_eq : ℚ → ℚ → Bool) (avg : Bool) (pre : List Point) :
    ∀ (r : List Point) (rs : List (List Point)) (x0 : ℚ), r ≠ [] →
      (1 < r.length → x0 = run_anchor r) → (pre = [] → r.length = 1) →
      merge_loop is_eq avg pre.length (pre ++ run_acc r :: rs.map (fin_run avg))
          r.length x0 =
        (pre.foldr (push_run_by is_eq) (r :: rs)).map (fin_run avg) := by
  induction pre using List.reverseRecOn with
  | nil =>
    intro r rs x0 _ _ h1
    have h1' := h1 rfl
    simp [merge_loop, fin_run, h1']
  | append_singleton pre p ih =>
    intro r rs x0 hr hx0 _
    have hx0' : (if r.length = 1 then (run_acc r).x else x0) = run_anchor r := by
      by_cases h1 : r.length = 1
      · obtain ⟨a, rfl⟩ := List.length_eq_one.mp h1
        simp [run_acc, run_anchor_singleton]
      · have : 1 < r.length := by
          have := List.length_pos.mpr hr
          omega
        simp [h1, hx0 this]
    rw [List.length_append, List.length_singleton, List.append_assoc, List.singleton_append,
      List.foldr_append]
    simp only [merge_loop, List.foldr_cons, List.foldr_nil]
    rw [getD_append_here, getD_append_next, hx0']
    by_cases hpx : is_eq p.x (run_anchor r) = true
    · have hpush : push_run_by is_eq p (r :: rs) = (p :: r) :: rs := by
        simp [push_run_by, hpx]
      rw [hpush]
      simp only [hpx, if_true, set_append_here, eraseIdx_append_next, ← run_acc_cons p hr]
      by_cases hpre : 0 < pre.length
      · simp only [hpre, if_true]
        have := ih (p :: r) rs (run_anchor r) (List.cons_ne_nil _ _)
          (fun _ => (run_anchor_cons p hr).symm)
          (fun h => absurd (List.length_pos.mp hpre) (by simp [h]))
        simpa using this
      · have hnil : pre = [] := List.length_eq_zero.mp (by omega)
        subst hnil
        have hlen : 1 < r.length + 1 := by
          have := List.length_pos.mpr hr
          omega
        simp [hlen, fin_run]
    · have hpush : push_run_by is_eq p (r :: rs) = [p] :: r :: rs := by
        simp [push_run_by, hpx]
      rw [hpush]
      simp only [hpx, Bool.false_eq_true, if_false]
      by_cases hlen : 1 < r.length
      · simp only [hlen, if_true, set_append_next]
        have := ih [p] (r :: rs) (run_anchor r) (List.cons_ne_nil _ _) (by simp) (by simp)
        simpa [run_acc, fin_run, hlen] using this
      · simp only [hlen, if_false]
        have hone : r.length = 1 := by
          have := List.length_pos.mpr hr
          omega
        have := ih [p] (r :: rs) (run_anchor r) (List.cons_ne_nil _ _) (by simp) (by simp)
        rw [hone]
        simpa [run_acc, fin_run, hlen] using this

/-- For any `is_eq`, `merge_same_x` delivers one finished point per run of the sweep. -/
theorem merge_same_x_eq_runs_by (is_eq : ℚ → ℚ → Bool) (pp : List Point) (avg : Bool) :
    merge_same_x is_eq pp avg = (runs_by is_eq pp).map (fin_run avg) := by
  rcases List.eq_nil_or_concat pp with h | ⟨pre, last, h⟩
  · subst h; simp [merge_same_x, merge_loop, runs_by]
  · subst h
    have := merge_loop_runs is_eq avg pre [last] [] 0 (List.cons_ne_nil _ _) (by simp) (by simp)
    simpa [merge_same_x, runs_by, List.foldr_append, push_run_by, run_acc] using this

theorem push_run_ok (p : Point) (rs : List (List Point)) (h : ∀ r ∈ rs, RunOK r) :
    ∀ r ∈ push_run p rs, RunOK r := by
  have hp : RunOK [p] := ⟨List.cons_ne_nil _ _, by simp⟩
  cases rs with
  | nil =>
    intro r hr
    simp only [push_run, List.mem_singleton] at hr
    rw [hr]; exact hp
  | cons r0 rs =>
    cases r0 with
    | nil =>
      intro r hr
      simp only [push_run, List.mem_cons] at hr
      rcases hr with hr | hr | hr
      · rw [hr]; exact hp
      · exact h r (by simp [hr])
      · exact h r (by simp [hr])
    | cons q r0 =>
      have h0 := h (q :: r0) (by simp)
      intro r hr
      by_cases hx : p.x = q.x
      · simp only [push_run, hx, if_true, List.mem_cons] at hr
        rcases hr with hr | hr
        · rw [hr]
          refine ⟨List.cons_ne_nil _ _, ?_⟩
          intro a ha
          rcases List.mem_cons.mp ha with ha | ha
          · rw [ha]; rfl
          · have := h0.2 a ha
            simp only [List.headD_cons] at this ⊢
            rw [this, hx]
        · exact h r (by simp [hr])
      · simp only [push_run, hx, if_false, List.mem_cons] at hr
        rcases hr with hr | hr | hr
        · rw [hr]; exact hp
        · exact h r (by simp [hr])
        · exact h r (by simp [hr])

theorem equal_x_runs_ok (pp : List Point) : ∀ r ∈ equal_x_runs pp, RunOK r := by
  induction pp with
  | nil => intro r hr; simp [equal_x_runs] at hr
  | cons p pp ih => exact push_run_ok p _ ih

theorem getLastD_mem_cons (l : List Point) (a : Point) : l.getLastD a ∈ a :: l := by
  induction l generalizing a with
  | nil => simp
  | cons b l ih =>
    rw [List.getLastD_cons]
    exact List.mem_cons_of_mem a (ih b)

theorem run_anchor_mem {r : List Point} (hr : r ≠ []) : ∃ q ∈ r, run_anchor r = q.x := by
  cases r with
  | nil => exact absurd rfl hr
  | cons a r =>
    exact ⟨r.getLastD a, getLastD_mem_cons r a, by rw [run_anchor, List.getLastD_cons]⟩

theorem run_anchor_of_runOK {r : List Point} (h : RunOK r) :
    run_anchor r = (r.headD default).x := by
  obtain ⟨q, hq, hx⟩ := run_anchor_mem h.1
  rw [hx]; exact h.2 q hq

/-- Under exact comparison the runs of the sweep are the maximal runs of equal `x`. -/
theorem runs_by_exact (pp : List Point) : runs_by exact_eq pp = equal_x_runs pp := by
  induction pp with
  | nil => rfl
  | cons p pp ih =>
    have hok := equal_x_runs_ok pp
    show push_run_by exact_eq p (runs_by exact_eq pp) = push_run p (equal_x_runs pp)
    rw [ih]
    generalize equal_x_runs pp = rs at hok
    cases rs with
    | nil => rfl
    | cons r rs =>
      have hr := hok r (by simp)
      have ha := run_anchor_of_runOK hr
      cases r with
      | nil => exact absurd rfl hr.1
      | cons q r =>
        simp only [List.headD_cons] at ha
        by_cases hx : p.x = q.x
        · simp [push_run_by, push_run, ha, hx, exact_eq]
        · simp [push_run_by, push_run, ha, hx, exact_eq]

theorem merge_same_x_eq_fin_runs (pp : List Point) (avg : Bool) :
    merge_same_x exact_eq pp avg = (equal_x_runs pp).map (fin_run avg) := by
  rw [merge_same_x_eq_runs_by, runs_by_exact]

theorem run_acc_fields {r : List Point} (hr : r ≠ []) :
    run_acc r = ⟨(r.map Point.x).sum, (r.map Point.y).sum, (r.map Point.sigma).sum,
      r.any Point.is_active⟩ := by
  induction r with
  | nil => exact absurd rfl hr
  | cons a r ih =>
    cases r with
    | nil => simp [run_acc]
    | cons b r =>
      rw [run_acc_cons a (List.cons_ne_nil b r), ih (List.cons_ne_nil b r)]
      simp [Point.absorb]

theorem sum_x_of_runOK {r : List Point} (h : RunOK r) :
    (r.map Point.x).sum = (r.length : ℚ) * (r.headD default).x := by
  have : ∀ (l : List Point) (c : ℚ), (∀ q ∈ l, q.x = c) →
      (l.map Point.x).sum = (l.length : ℚ) * c := by
    intro l c hl
    induction l with
    | nil => simp
    | cons a l ih =>
      have ha := hl a (by simp)
      have := ih (fun q hq => hl q (by simp [hq]))
      simp only [List.map_cons, List.sum_cons, List.length_cons, this, ha]
      push_cast; ring
  exact this r _ h.2

theorem fin_run_eq_merge_run (avg : Bool) {r : List Point} (h : RunOK r) :
    fin_run avg r = merge_run avg r := by
  have hlen : 0 < r.length := List.length_pos.mpr h.1
  have hne : (r.length : ℚ) ≠ 0 := by exact_mod_cast (Nat.pos_iff_ne_zero.mp hlen)
  by_cases h1 : 1 < r.length
  · simp only [fin_run, h1, if_true, run_acc_fields h.1, Point.divide, merge_run,
      sum_x_of_runOK h]
    ext <;> simp [mul_div_cancel_left₀ _ hne]
  · have hone : r.length = 1 := by omega
    obtain ⟨a, rfl⟩ := List.length_eq_one.mp hone
    simp only [fin_run, h1, if_false, run_acc, merge_run]
    ext <;> simp

/-- Under exact comparison `merge_same_x` agrees with the reference grouping. -/
theorem merge_same_x_exact (pp : List Point) (avg : Bool) :
    merge_same_x exact_eq pp avg = merge_same_x_ref pp avg := by
  rw [merge_same_x_eq_fin_runs, merge_same_x_ref]
  exact List.map_congr_left (fun r hr => fin_run_eq_merge_run avg (equal_x_runs_ok pp r hr))

/-- C4: with `is_eq` read as exact equality and exact arithmetic,
`merge_same_x(P, avg)` equals the reference grouping for every point sequence
`P` (sorted by `x` or not): one output point per maximal run of equal-`x`
points, in the original order, carrying the run's `x`, the sums of `y` and of
`sigma` over the run (their means when `avg` is set) and the disjunction of
`is_active`. -/
theorem merge_same_x_eq_ref (pp : List Point) (avg : Bool) :
    merge_same_x exact_eq pp avg = merge_same_x_ref pp avg := by
  rw [merge_same_x_eq_fin_runs, merge_same_x_ref]
  exact List.map_congr_left (fun r hr => fin_run_eq_merge_run avg (equal_x_runs_ok pp r hr))

/-! ### Shape of the runs -/

theorem equal_x_runs_cons (p : Point) (pp : List Point) :
    equal_x_runs (p :: pp) = push_run p (equal_x_runs pp) := rfl

theorem push_run_head (p : Point) (rs : List (List Point)) :
    ∃ r rs', push_run p rs = (p :: r) :: rs' := by
  cases rs with
  | nil => exact ⟨[], [], rfl⟩
  | cons r0 rs =>
    cases r0 with
    | nil => exact ⟨[], [] :: rs, rfl⟩
    | cons q r0 =>
      by_cases hx : p.x = q.x
      · exact ⟨q :: r0, rs, by simp [push_run, hx]⟩
      · exact ⟨[], (q :: r0) :: rs, by simp [push_run, hx]⟩

theorem equal_x_runs_head (p : Point) (pp : List Point) :
    ∃ r rs, equal_x_runs (p :: pp) = (p :: r) :: rs :=
  push_run_head p _

/-- The runs are a decomposition of the sequence. -/
theorem equal_x_runs_flatten (pp : List Point) : (equal_x_runs pp).flatten = pp := by
  induction pp with
  | nil => rfl
  | cons p pp ih =>
    rw [equal_x_runs_cons]
    generalize equal_x_runs pp = rs at ih
    cases rs with
    | nil => simp at ih; simp [push_run, ← ih]
    | cons r0 rs =>
      cases r0 with
      | nil => simp [push_run, ← ih]
      | cons q r0 =>
        by_cases hx : p.x = q.x
        · simp [push_run, hx, ← ih]
        · simp [push_run, hx, ← ih]

theorem equal_x_runs_length_le (pp : List Point) : (equal_x_runs pp).length ≤ pp.length := by
  induction pp with
  | nil => simp [equal_x_runs]
  | cons p pp ih =>
    rw [equal_x_runs_cons]
    generalize equal_x_runs pp = rs at ih
    cases rs with
    | nil => simp [push_run]
    | cons r0 rs =>
      cases r0 with
      | nil => simp only [push_run, List.length_cons] at ih ⊢; omega
      | cons q r0 =>
        by_cases hx : p.x = q.x
        · simp only [push_run, hx, if_true, List.length_cons] at ih ⊢; omega
        · simp only [push_run, hx, if_false, List.length_cons] at ih ⊢; omega

/-- The runs are maximal: neighbouring runs start at different `x`. -/
theorem equal_x_runs_differ (pp : List Point) : RunsDiffer (equal_x_runs pp) := by
  induction pp with
  | nil => exact List.chain'_nil
  | cons p pp ih =>
    rw [equal_x_runs_cons]
    have hok := equal_x_runs_ok pp
    generalize equal_x_runs pp = rs at ih hok
    cases rs with
    | nil => exact List.chain'_singleton _
    | cons r0 rs =>
      cases r0 with
      | nil => exact absurd rfl (hok [] (by simp)).1
      | cons q r0 =>
        by_cases hx : p.x = q.x
        · simp only [push_run, hx, if_true]
          cases rs with
          | nil => exact List.chain'_singleton _
          | cons r1 rs =>
            have h := List.chain'_cons.mp ih
            exact List.chain'_cons.mpr ⟨by simpa [hx] using h.1, h.2⟩
        · simp only [push_run, hx, if_false]
          exact List.chain'_cons.mpr ⟨by simpa using hx, ih⟩

/-- On a sequence sorted by `x` the runs start at strictly increasing `x`. -/
theorem equal_x_runs_ascend (pp : List Point) (hs : SortedByX pp) :
    RunsAscend (equal_x_runs pp) := by
  induction pp with
  | nil => exact List.chain'_nil
  | cons p pp ih =>
    have hs' : SortedByX pp := (List.pairwise_cons.mp hs).2
    have hp := (List.pairwise_cons.mp hs).1
    have ih := ih hs'
    rw [equal_x_runs_cons]
    cases pp with
    | nil => exact List.chain'_singleton _
    | cons q pp =>
      obtain ⟨r, rs, hq⟩ := equal_x_runs_head q pp
      rw [hq] at ih ⊢
      have hle : p.x ≤ q.x := hp q (by simp)
      by_cases hx : p.x = q.x
      · simp only [push_run, hx, if_true]
        cases rs with
        | nil => exact List.chain'_singleton _
        | cons r1 rs =>
          have h := List.chain'_cons.mp ih
          exact List.chain'_cons.mpr ⟨by simpa [hx] using h.1, h.2⟩
      · simp only [push_run, hx, if_false]
        exact List.chain'_cons.mpr ⟨by simpa using lt_of_le_of_ne hle hx, ih⟩

theorem merge_run_x (avg : Bool) (r : List Point) :
    (merge_run avg r).x = (r.headD default).x := rfl

theorem merge_run_singleton (avg : Bool) (q : Point) : merge_run avg [q] = q := by
  ext <;> simp [merge_run]

theorem splitBy_loop_runs (as : List Point) :
    ∀ (ag : Point) (g : List Point) (gs : List (List Point)),
      ∃ r rs, equal_x_runs (ag :: as) = (ag :: r) :: rs ∧
        List.splitBy.loop (fun a b : Point => decide (a.x = b.x)) as ag g gs =
          gs.reverse ++ ((g.reverse ++ ag :: r) :: rs) := by
  induction as with
  | nil =>
    intro ag g gs
    exact ⟨[], [], rfl, by simp [List.splitBy.loop]⟩
  | cons b as ih =>
    intro ag g gs
    by_cases hx : ag.x = b.x
    · obtain ⟨r, rs, hr, hl⟩ := ih b (ag :: g) gs
      refine ⟨b :: r, rs, ?_, ?_⟩
      · rw [equal_x_runs_cons, hr]; simp [push_run, hx]
      · simp only [List.splitBy.loop, hx, decide_True]
        rw [hl]; simp
    · obtain ⟨r, rs, hr, hl⟩ := ih b [] ((ag :: g).reverse :: gs)
      refine ⟨[], (b :: r) :: rs, ?_, ?_⟩
      · rw [equal_x_runs_cons, hr]; simp [push_run, hx]
      · simp only [List.splitBy.loop, hx, decide_False]
        rw [hl]; simp

/-- The reference runs are the library's split of the sequence at every
neighbouring pair with different `x`. -/
theorem equal_x_runs_eq_splitBy (pp : List Point) :
    equal_x_runs pp = pp.splitBy (fun a b : Point => decide (a.x = b.x)) := by
  cases pp with
  | nil => rfl
  | cons a as =>
    obtain ⟨r, rs, hr, hl⟩ := splitBy_loop_runs as a [] []
    rw [hr]
    simp only [List.splitBy]
    rw [hl]; simp

/-- A sequence whose neighbours differ in `x` splits into single-point runs. -/
theorem equal_x_runs_of_chain (pp : List Point)
    (h : List.Chain' (fun a b : Point => a.x ≠ b.x) pp) :
    equal_x_runs pp = pp.map (fun q => [q]) := by
  induction pp with
  | nil => rfl
  | cons p pp ih =>
    rw [equal_x_runs_cons]
    cases pp with
    | nil => rfl
    | cons q pp =>
      have hc := List.chain'_cons.mp h
      rw [ih hc.2]
      simp [push_run, hc.1]

theorem merge_same_x_ref_chain (avg : Bool) (pp : List Point) :
    List.Chain' (fun a b : Point => a.x ≠ b.x) (merge_same_x_ref pp avg) := by
  rw [merge_same_x_ref, List.chain'_map]
  exact equal_x_runs_differ pp

/-- C5: same-x merge is idempotent: with `is_eq` read as exact equality and
exact arithmetic, for every point sequence `P` (sorted by `x` or not) and each
mode `avg`, merging the merged sequence again changes nothing. -/
theorem merge_same_x_idempotent (pp : List Point) (avg : Bool) :
    merge_same_x exact_eq (merge_same_x exact_eq pp avg) avg = merge_same_x exact_eq pp avg := by
  rw [merge_same_x_exact pp avg, merge_same_x_exact]
  conv_lhs => rw [merge_same_x_ref, equal_x_runs_of_chain _ (merge_same_x_ref_chain avg pp)]
  rw [List.map_map]
  conv_rhs => rw [← List.map_id (merge_same_x_ref pp avg)]
  exact List.map_congr_left (fun q _ => merge_run_singleton avg q)

/-! ### Runs under a tolerance -/

theorem exact_eq_eq_tol_eq : exact_eq = tol_eq 0 := by
  funext a b
  simp only [exact_eq, tol_eq, abs_nonpos_iff, sub_eq_zero]

theorem runs_by_cons (is_eq : ℚ → ℚ → Bool) (p : Point) (pp : List Point) :
    runs_by is_eq (p :: pp) = push_run_by is_eq p (runs_by is_eq pp) := rfl

theorem runs_by_flatten (is_eq : ℚ → ℚ → Bool) (pp : List Point) :
    (runs_by is_eq pp).flatten = pp := by
  induction pp with
  | nil => rfl
  | cons p pp ih =>
    rw [runs_by_cons]
    generalize runs_by is_eq pp = rs at ih
    cases rs with
    | nil => simp at ih; simp [push_run_by, ← ih]
    | cons r rs =>
      by_cases hx : is_eq p.x (run_anchor r) = true
      · simp [push_run_by, hx, ← ih]
      · simp [push_run_by, hx, ← ih]

theorem runs_by_length_le (is_eq : ℚ → ℚ → Bool) (pp : List Point) :
    (runs_by is_eq pp).length ≤ pp.length := by
  induction pp with
  | nil => simp [runs_by]
  | cons p pp ih =>
    rw [runs_by_cons]
    generalize runs_by is_eq pp = rs at ih
    cases rs with
    | nil => simp [push_run_by]
    | cons r rs =>
      by_cases hx : is_eq p.x (run_anchor r) = true
      · simp only [push_run_by, hx, if_true, List.length_cons] at ih ⊢; omega
      · simp only [push_run_by, hx, List.length_cons] at ih ⊢
        simp only [Bool.false_eq_true, if_false, List.length_cons]; omega

theorem runs_by_ne_nil (is_eq : ℚ → ℚ → Bool) (p : Point) (pp : List Point) :
    runs_by is_eq (p :: pp) ≠ [] := by
  rw [runs_by_cons]
  generalize runs_by is_eq pp = rs
  cases rs with
  | nil => simp [push_run_by]
  | cons r rs =>
    by_cases hx : is_eq p.x (run_anchor r) = true <;> simp [push_run_by, hx]

theorem fin_run_x (avg : Bool) {r : List Point} (hr : r ≠ []) :
    (fin_run avg r).x = (r.map Point.x).sum / (r.length : ℚ) := by
  by_cases h1 : 1 < r.length
  · simp [fin_run, h1, run_acc_fields hr, Point.divide]
  · have hone : r.length = 1 := by
      have := List.length_pos.mpr hr
      omega
    obtain ⟨a, rfl⟩ := List.length_eq_one.mp hone
    simp [fin_run, run_acc]

theorem sum_x_bounds (r : List Point) (lo hi : ℚ) (h : ∀ q ∈ r, lo ≤ q.x ∧ q.x ≤ hi) :
    (r.length : ℚ) * lo ≤ (r.map Point.x).sum ∧ (r.map Point.x).sum ≤ (r.length : ℚ) * hi := by
  induction r with
  | nil => simp
  | cons a r ih =>
    have ha := h a (by simp)
    have := ih (fun q hq => h q (by simp [hq]))
    simp only [List.map_cons, List.sum_cons, List.length_cons]
    push_cast
    constructor <;> nlinarith [this.1, this.2, ha.1, ha.2]

/-- The `x` of a finished run lies where the `x` of its points lie. -/
theorem fin_run_x_bounds (avg : Bool) {r : List Point} (hr : r ≠ []) (lo hi : ℚ)
    (h : ∀ q ∈ r, lo ≤ q.x ∧ q.x ≤ hi) : lo ≤ (fin_run avg r).x ∧ (fin_run avg r).x ≤ hi := by
  have hlen : (0 : ℚ) < (r.length : ℚ) := by exact_mod_cast List.length_pos.mpr hr
  have hb := sum_x_bounds r lo hi h
  rw [fin_run_x avg hr]
  constructor
  · rw [le_div_iff₀ hlen]; linarith [hb.1]
  · rw [div_le_iff₀ hlen]; linarith [hb.2]

/-- On a sorted sequence and under a tolerance `eps ≥ 0`, every run of the sweep
stays within `eps` below its anchor and neighbouring anchors are more than
`eps` apart. -/
theorem runs_by_tol (eps : ℚ) (heps : 0 ≤ eps) (pp : List Point) (hs : SortedByX pp) :
    (∀ r ∈ runs_by (tol_eq eps) pp, RunTol eps r) ∧ RunsApart eps (runs_by (tol_eq eps) pp) := by
  induction pp with
  | nil => exact ⟨fun r hr => by simp [runs_by] at hr, List.chain'_nil⟩
  | cons p pp ih =>
    have hs' : SortedByX pp := (List.pairwise_cons.mp hs).2
    have hp := (List.pairwise_cons.mp hs).1
    obtain ⟨htol, hapart⟩ := ih hs'
    have hflat := runs_by_flatten (tol_eq eps) pp
    have hsingle : RunTol eps [p] :=
      ⟨List.cons_ne_nil _ _, by
        intro q hq
        rw [List.mem_singleton.mp hq, run_anchor_singleton]
        constructor <;> linarith⟩
    rw [runs_by_cons]
    generalize runs_by (tol_eq eps) pp = rs at htol hapart hflat
    cases rs with
    | nil =>
      refine ⟨?_, List.chain'_singleton _⟩
      intro r hr
      simp only [push_run_by, List.mem_singleton] at hr
      rw [hr]; exact hsingle
    | cons r rs =>
      have hr := htol r (by simp)
      obtain ⟨q, hq, hqx⟩ := run_anchor_mem hr.1
      have hqpp : q ∈ pp := by
        rw [← hflat]; exact List.mem_flatten.mpr ⟨r, by simp, hq⟩
      have hle : p.x ≤ run_anchor r := by rw [hqx]; exact hp q hqpp
      by_cases hx : tol_eq eps p.x (run_anchor r) = true
      · have habs : |p.x - run_anchor r| ≤ eps := by simpa [tol_eq] using hx
        have hlow : run_anchor r - eps ≤ p.x := by
          have := (abs_le.mp habs).1; linarith
        simp only [push_run_by, hx, if_true]
        constructor
        · intro s hsm
          rcases List.mem_cons.mp hsm with h | h
          · rw [h]
            refine ⟨List.cons_ne_nil _ _, ?_⟩
            intro a ha
            rw [run_anchor_cons p hr.1]
            rcases List.mem_cons.mp ha with ha | ha
            · rw [ha]; exact ⟨hlow, hle⟩
            · exact hr.2 a ha
          · exact htol s (by simp [h])
        · cases rs with
          | nil => exact List.chain'_singleton _
          | cons r1 rs =>
            have h := List.chain'_cons.mp hapart
            exact List.chain'_cons.mpr ⟨by rw [run_anchor_cons p hr.1]; exact h.1, h.2⟩
      · have habs : ¬ |p.x - run_anchor r| ≤ eps := by simpa [tol_eq] using hx
        have hfar : p.x < run_anchor r - eps := by
          by_contra hcon
          apply habs
          rw [abs_le]; constructor <;> linarith
        simp only [push_run_by, hx, Bool.false_eq_true, if_false]
        constructor
        · intro s hsm
          rcases List.mem_cons.mp hsm with h | h
          · rw [h]; exact hsingle
          · exact htol s h
        · exact List.chain'_cons.mpr ⟨by rw [run_anchor_singleton]; exact hfar, hapart⟩

theorem fin_runs_strict (avg : Bool) (eps : ℚ) (rs : List (List Point))
    (htol : ∀ r ∈ rs, RunTol eps r) (hapart : RunsApart eps rs) :
    List.Chain' (fun a b : Point => a.x < b.x) (rs.map (fin_run avg)) := by
  induction rs with
  | nil => exact List.chain'_nil
  | cons r rs ih =>
    cases rs with
    | nil => exact List.chain'_singleton _
    | cons s rs =>
      have h := List.chain'_cons.mp hapart
      have hr := htol r (by simp)
      have hs := htol s (by simp)
      have h1 := (fin_run_x_bounds avg hr.1 _ _ hr.2).2
      have h2 := (fin_run_x_bounds avg hs.1 _ _ hs.2).1
      simp only [List.map_cons]
      refine List.chain'_cons.mpr ⟨by linarith [h.1], ?_⟩
      have := ih (fun t ht => htol t (by simp [ht])) h.2
      simpa using this

/-- In exact arithmetic, with `is_eq` the comparison up to any tolerance
`eps ≥ 0` (`eps = 0` being exact equality): on a point sequence `P` sorted by
`x` the output of `merge_same_x` has strictly increasing `x` values, is no
longer than `P`, and is empty only if `P` is. -/
theorem merge_same_x_strict (eps : ℚ) (heps : 0 ≤ eps) (pp : List Point) (avg : Bool)
    (hs : SortedByX pp) :
    StrictByX (merge_same_x (tol_eq eps) pp avg) ∧
    (merge_same_x (tol_eq eps) pp avg).length ≤ pp.length ∧
    (merge_same_x (tol_eq eps) pp avg = [] → pp = []) := by
  rw [merge_same_x_eq_runs_by]
  refine ⟨?_, ?_, ?_⟩
  · obtain ⟨htol, hapart⟩ := runs_by_tol eps heps pp hs
    have hc := fin_runs_strict avg eps _ htol hapart
    haveI : IsTrans Point (fun a b : Point => a.x < b.x) := ⟨fun _ _ _ h1 h2 => lt_trans h1 h2⟩
    exact List.chain'_iff_pairwise.mp hc
  · rw [List.length_map]; exact runs_by_length_le _ pp
  · intro h
    cases pp with
    | nil => rfl
    | cons p pp => exact absurd (List.map_eq_nil_iff.mp h) (runs_by_ne_nil _ p pp)

/-! ### The stack machine: basic facts -/

theorem slot_not_error (m : Machine) (j : Int) (e : ExecuteError) :
    m.slot j = .error (Stop.error e) ↔ False := by
  unfold Machine.slot
  split <;> simp

theorem put_not_error (m : Machine) (sp j : Int) (v : DtStackItem) (e : ExecuteError) :
    m.put sp j v = .error (Stop.error e) ↔ False := by
  unfold Machine.put
  split <;> simp

theorem put_stackPtr {m m1 : Machine} {sp j : Int} {v : DtStackItem}
    (h : m.put sp j v = .ok m1) : m1.stackPtr = sp := by
  unfold Machine.put at h
  split at h
  · cases h; rfl
  · cases h

/-- No opcode other than the two pushes moves `stackPtr` upwards. -/
theorem exec_op_stackPtr (E : Ext) (c : Int) (op : DtOp) (m m1 : Machine)
    (h : exec_op E c op m = .ok m1) : m1.stackPtr ≤ m.stackPtr := by
  cases op <;> simp only [exec_op, bind, Except.bind] at h <;>
    (repeat' split at h) <;>
    first
    | (rw [put_stackPtr h]; try omega)
    | (cases h; done)
    | (cases h; exact le_refl _)

/-- No opcode other than the two pushes raises "stack overflow". -/
theorem exec_op_not_overflow (E : Ext) (c : Int) (op : DtOp) (m : Machine) :
    exec_op E c op m ≠ .error (Stop.error ExecuteError.stack_overflow) := by
  intro h
  cases op <;> simp only [exec_op, bind, Except.bind] at h <;>
    (repeat' split at h) <;>
    simp_all [slot_not_error, put_not_error]

theorem exec_number_ok {numbers : List ℚ} {m m1 : Machine} {o : Option Int}
    (h : exec_number numbers m o = .ok m1) :
    m.stackPtr < 5 ∧ m1.stackPtr = m.stackPtr + 1 ∧ o ≠ none := by
  unfold exec_number at h
  simp only [bind, Except.bind] at h
  (repeat' split at h) <;> first
    | cases h
    | exact ⟨by omega, put_stackPtr h, by simp⟩

theorem exec_dataset_ok {F : List Data} {m m1 : Machine} {o : Option Int}
    (h : exec_dataset F m o = .ok m1) :
    m.stackPtr < 5 ∧ m1.stackPtr = m.stackPtr + 1 ∧ o ≠ none := by
  unfold exec_dataset at h
  simp only [bind, Except.bind] at h
  (repeat' split at h) <;> first
    | cases h
    | exact ⟨by omega, put_stackPtr h, by simp⟩

theorem exec_number_overflow (numbers : List ℚ) (m : Machine) (o : Option Int) :
    exec_number numbers m o = .error (Stop.error ExecuteError.stack_overflow) ↔
      5 ≤ m.stackPtr := by
  unfold exec_number
  simp only [bind, Except.bind]
  constructor
  · intro h
    (repeat' split at h) <;> first
      | omega
      | simp_all [slot_not_error, put_not_error]
  · intro h
    have : m.stackPtr + 1 ≥ 6 := by omega
    simp [this]

theorem get_data_not_overflow (F : List Data) (n : Int) :
    get_data F n = .error (Stop.error ExecuteError.stack_overflow) ↔ False := by
  unfold get_data
  split <;> simp

theorem exec_dataset_overflow (F : List Data) (m : Machine) (o : Option Int) :
    exec_dataset F m o = .error (Stop.error ExecuteError.stack_overflow) ↔
      5 ≤ m.stackPtr := by
  unfold exec_dataset
  simp only [bind, Except.bind]
  constructor
  · intro h
    (repeat' split at h) <;> first
      | omega
      | simp_all [slot_not_error, put_not_error, get_data_not_overflow]
  · intro h
    have : m.stackPtr + 1 ≥ 6 := by omega
    simp [this]

/-! ### Unfolding the code loop -/

theorem run_code_number {E : Ext} {c : Int} (h : E.op_of c = DtOp.OP_NUMBER) (F : List Data)
    (numbers : List ℚ) (m : Machine) (idx : Int) (rest : List Int) :
    run_code E F numbers m (c :: idx :: rest) =
      (exec_number numbers m (some idx)).bind (fun m1 => run_code E F numbers m1 rest) := by
  simp only [run_code, h]
  cases exec_number numbers m (some idx) <;> rfl

theorem run_code_number_end {E : Ext} {c : Int} (h : E.op_of c = DtOp.OP_NUMBER)
    (F : List Data) (numbers : List ℚ) (m : Machine) :
    run_code E F numbers m [c] = exec_number numbers m none := by
  simp only [run_code, h]

theorem run_code_dataset {E : Ext} {c : Int} (h : E.op_of c = DtOp.OP_DATASET) (F : List Data)
    (numbers : List ℚ) (m : Machine) (idx : Int) (rest : List Int) :
    run_code E F numbers m (c :: idx :: rest) =
      (exec_dataset F m (some idx)).bind (fun m1 => run_code E F numbers m1 rest) := by
  simp only [run_code, h]
  cases exec_dataset F m (some idx) <;> rfl

theorem run_code_dataset_end {E : Ext} {c : Int} (h : E.op_of c = DtOp.OP_DATASET)
    (F : List Data) (numbers : List ℚ) (m : Machine) :
    run_code E F numbers m [c] = exec_dataset F m none := by
  simp only [run_code, h]

theorem run_code_other {E : Ext} {c : Int} (h1 : E.op_of c ≠ DtOp.OP_NUMBER)
    (h2 : E.op_of c ≠ DtOp.OP_DATASET) (F : List Data) (numbers : List ℚ) (m : Machine)
    (rest : List Int) :
    run_code E F numbers m (c :: rest) =
      (exec_op E c (E.op_of c) m).bind (fun m1 => run_code E F numbers m1 rest) := by
  cases rest with
  | nil =>
    cases hop : E.op_of c <;> simp only [run_code, hop] <;>
      first
      | exact absurd hop h1
      | exact absurd hop h2
      | (cases exec_op E c _ m <;> rfl)
  | cons idx rest =>
    cases hop : E.op_of c <;> simp only [run_code, hop] <;>
      first
      | exact absurd hop h1
      | exact absurd hop h2
      | (cases exec_op E c _ m <;> rfl)

/-- Running a prefix that ends normally and then the rest is running the whole code. -/
theorem run_code_append (E : Ext) (F : List Data) (numbers : List ℚ) :
    ∀ (n : Nat) (pre : List Int), pre.length ≤ n → ∀ (m m1 : Machine) (rest : List Int),
      run_code E F numbers m pre = .ok m1 →
      run_code E F numbers m (pre ++ rest) = run_code E F numbers m1 rest := by
  intro n
  induction n with
  | zero =>
    intro pre hlen m m1 rest h
    have : pre = [] := List.length_eq_zero.mp (Nat.le_zero.mp hlen)
    subst this
    simp only [run_code] at h
    cases h; rfl
  | succ n ih =>
    intro pre hlen m m1 rest h
    cases pre with
    | nil => simp only [run_code] at h; cases h; rfl
    | cons c pre =>
      by_cases h1 : E.op_of c = DtOp.OP_NUMBER
      · cases pre with
        | nil =>
          rw [run_code_number_end h1] at h
          exact absurd rfl (exec_number_ok h).2.2
        | cons idx pre =>
          rw [run_code_number h1] at h
          rw [List.cons_append, List.cons_append, run_code_number h1]
          cases hx : exec_number numbers m (some idx) with
          | error e => rw [hx] at h; cases h
          | ok m2 =>
            rw [hx] at h
            exact ih pre (by simp at hlen; omega) m2 m1 rest h
      · by_cases h2 : E.op_of c = DtOp.OP_DATASET
        · cases pre with
          | nil =>
            rw [run_code_dataset_end h2] at h
            exact absurd rfl (exec_dataset_ok h).2.2
          | cons idx pre =>
            rw [run_code_dataset h2] at h
            rw [List.cons_append, List.cons_append, run_code_dataset h2]
            cases hx : exec_dataset F m (some idx) with
            | error e => rw [hx] at h; cases h
            | ok m2 =>
              rw [hx] at h
              exact ih pre (by simp at hlen; omega) m2 m1 rest h
        · rw [run_code_other h1 h2] at h
          rw [List.cons_append, run_code_other h1 h2]
          cases hx : exec_op E c (E.op_of c) m with
          | error e => rw [hx] at h; cases h
          | ok m2 =>
            rw [hx] at h
            exact ih pre (by simp at hlen; omega) m2 m1 rest h

/-- Pushing with six live values raises "stack overflow", whatever follows. -/
theorem run_code_push_full (E : Ext) (F : List Data) (numbers : List ℚ) (m : Machine)
    (c : Int) (post : List Int) (hsp : m.stackPtr = 5)
    (hc : E.op_of c = DtOp.OP_NUMBER ∨ E.op_of c = DtOp.OP_DATASET) :
    run_code E F numbers m (c :: post) = .error (Stop.error ExecuteError.stack_overflow) := by
  rcases hc with hc | hc
  · cases post with
    | nil =>
      rw [run_code_number_end hc]
      exact (exec_number_overflow numbers m none).mpr (by omega)
    | cons idx post =>
      rw [run_code_number hc, (exec_number_overflow numbers m (some idx)).mpr (by omega)]
      rfl
  · cases post with
    | nil =>
      rw [run_code_dataset_end hc]
      exact (exec_dataset_overflow F m none).mpr (by omega)
    | cons idx post =>
      rw [run_code_dataset hc, (exec_dataset_overflow F m (some idx)).mpr (by omega)]
      rfl

/-- A run that raises "stack overflow" has reached a push with six live values. -/
theorem run_code_overflow_split (E : Ext) (F : List Data) (numbers : List ℚ) :
    ∀ (n : Nat) (code : List Int), code.length ≤ n → ∀ (m : Machine), m.stackPtr ≤ 5 →
      run_code E F numbers m code = .error (Stop.error ExecuteError.stack_overflow) →
      ∃ (pre : List Int) (c : Int) (post : List Int) (m1 : Machine),
        code = pre ++ c :: post ∧ run_code E F numbers m pre = .ok m1 ∧ m1.stackPtr = 5 ∧
        (E.op_of c = DtOp.OP_NUMBER ∨ E.op_of c = DtOp.OP_DATASET) := by
  intro n
  induction n with
  | zero =>
    intro code hlen m _ h
    have : code = [] := List.length_eq_zero.mp (Nat.le_zero.mp hlen)
    subst this
    simp only [run_code] at h
    cases h
  | succ n ih =>
    intro code hlen m hm h
    cases code with
    | nil => simp only [run_code] at h; cases h
    | cons c code =>
      by_cases h1 : E.op_of c = DtOp.OP_NUMBER
      · cases code with
        | nil =>
          rw [run_code_number_end h1] at h
          have := (exec_number_overflow numbers m none).mp h
          exact ⟨[], c, [], m, rfl, rfl, by omega, Or.inl h1⟩
        | cons idx code =>
          rw [run_code_number h1] at h
          cases hx : exec_number numbers m (some idx) with
          | error e =>
            rw [hx] at h
            have he : e = Stop.error ExecuteError.stack_overflow := by
              simpa [Except.bind] using h
            rw [he] at hx
            have := (exec_number_overflow numbers m (some idx)).mp hx
            exact ⟨[], c, idx :: code, m, rfl, rfl, by omega, Or.inl h1⟩
          | ok m2 =>
            rw [hx] at h
            have hk := exec_number_ok hx
            obtain ⟨pre, c1, post, m3, hcode, hrun, hsp, hc1⟩ :=
              ih code (by simp at hlen; omega) m2 (by omega) h
            refine ⟨c :: idx :: pre, c1, post, m3, by rw [hcode]; rfl, ?_, hsp, hc1⟩
            rw [run_code_number h1, hx]
            exact hrun
      · by_cases h2 : E.op_of c = DtOp.OP_DATASET
        · cases code with
          | nil =>
            rw [run_code_dataset_end h2] at h
            have := (exec_dataset_overflow F m none).mp h
            exact ⟨[], c, [], m, rfl, rfl, by omega, Or.inr h2⟩
          | cons idx code =>
            rw [run_code_dataset h2] at h
            cases hx : exec_dataset F m (some idx) with
            | error e =>
              rw [hx] at h
              have he : e = Stop.error ExecuteError.stack_overflow := by
                simpa [Except.bind] using h
              rw [he] at hx
              have := (exec_dataset_overflow F m (some idx)).mp hx
              exact ⟨[], c, idx :: code, m, rfl, rfl, by omega, Or.inr h2⟩
            | ok m2 =>
              rw [hx] at h
              have hk := exec_dataset_ok hx
              obtain ⟨pre, c1, post, m3, hcode, hrun, hsp, hc1⟩ :=
                ih code (by simp at hlen; omega) m2 (by omega) h
              refine ⟨c :: idx :: pre, c1, post, m3, by rw [hcode]; rfl, ?_, hsp, hc1⟩
              rw [run_code_dataset h2, hx]
              exact hrun
        · rw [run_code_other h1 h2] at h
          cases hx : exec_op E c (E.op_of c) m with
          | error e =>
            rw [hx] at h
            have he : e = Stop.error ExecuteError.stack_overflow := by
              simpa [Except.bind] using h
            rw [he] at hx
            exact absurd hx (exec_op_not_overflow E c _ m)
          | ok m2 =>
            rw [hx] at h
            have hk := exec_op_stackPtr E c _ m m2 hx
            obtain ⟨pre, c1, post, m3, hcode, hrun, hsp, hc1⟩ :=
              ih code (by simp at hlen; omega) m2 (by omega) h
            refine ⟨c :: pre, c1, post, m3, by rw [hcode]; rfl, ?_, hsp, hc1⟩
            rw [run_code_other h1 h2, hx]
            exact hrun

/-! ### `run_dt`: the final commit -/

theorem set_length_append (F : List Data) (d v : Data) :
    (F ++ [d]).set F.length v = F ++ [v] := by
  induction F with
  | nil => rfl
  | cons a F ih => simp

theorem get_data_append_dm (F : List Data) :
    get_data (append_dm F) (get_dm_count (append_dm F) - 1) = .ok ⟨[], ""⟩ := by
  have hlen : (append_dm F).length = F.length + 1 := by simp [append_dm]
  have h1 : get_dm_count (append_dm F) - 1 = (F.length : Int) := by
    simp [get_dm_count, hlen]
  rw [h1]
  unfold get_data
  have h2 : (0 : Int) ≤ (F.length : Int) ∧ (F.length : Int) < ((append_dm F).length : Int) := by
    rw [hlen]; constructor <;> omega
  rw [if_pos h2]
  simp [append_dm, List.getD_append_right]

/-- The commit with the create-new target: the result goes into a dataset
appended at the end, which is there also when the commit fails. -/
theorem commit_new (E : Ext) (F : List Data) (top : DtStackItem) :
    commit E E.kNew F top =
      if top.is_num = false then (Outcome.done, F ++ [⟨top.points, top.title⟩])
      else if top.num = 0 then (Outcome.done, F ++ [⟨[], ""⟩])
      else (Outcome.stopped (Stop.error ExecuteError.dataset_or_0_expected),
            F ++ [⟨[], ""⟩]) := by
  have hidx : get_dm_count (append_dm F) - 1 = (F.length : Int) := by
    simp [get_dm_count, append_dm]
  unfold commit
  simp only [if_true, get_data_append_dm]
  rw [hidx]
  rcases top with ⟨isn, num, pts, title⟩
  cases isn
  · simp [set_points_title, append_dm, set_length_append]
  · by_cases hz : num = 0
    · simp [hz, clear_data, append_dm, set_length_append]
    · simp [hz, append_dm]

/-- The commit with an explicit index of an existing dataset. -/
theorem commit_index (E : Ext) (out : Int) (F : List Data) (top : DtStackItem)
    (hne : out ≠ E.kNew) (h0 : 0 ≤ out) (h1 : out < F.length) :
    commit E out F top =
      if top.is_num = false then (Outcome.done, F.set out.toNat ⟨top.points, top.title⟩)
      else if top.num = 0 then (Outcome.done, F.set out.toNat ⟨[], ""⟩)
      else (Outcome.stopped (Stop.error ExecuteError.dataset_or_0_expected), F) := by
  unfold commit
  simp only [hne, if_false, get_data, h0, h1, and_self, if_true]
  rcases top with ⟨isn, num, pts, title⟩
  cases isn
  · simp [set_points_title]
  · by_cases hz : num = 0
    · simp [hz, clear_data]
    · simp [hz]

/-- The commit with an explicit index that denotes no dataset. -/
theorem commit_no_such (E : Ext) (out : Int) (F : List Data) (top : DtStackItem)
    (hne : out ≠ E.kNew) (h : ¬ (0 ≤ out ∧ out < F.length)) :
    commit E out F top =
      (Outcome.stopped (Stop.error (ExecuteError.no_such_dataset out)), F) := by
  unfold commit
  simp only [hne, if_false, get_data, h]

/-! ### `run_dt`: failure and the dataset collection -/

/-- Where a failing call leaves the collection: untouched, except that a
create-new call which ends with "dataset or 0 expected on RHS" has already
appended the new, empty dataset. -/
theorem run_dt_error_frame (E : Ext) (vm : VMData) (out : Int) (F : List Data)
    (e : ExecuteError)
    (h : (run_dt E vm out F).1 = Outcome.stopped (Stop.error e)) :
    (run_dt E vm out F).2 = F ∨
      ((run_dt E vm out F).2 = append_dm F ∧ out = E.kNew ∧
        e = ExecuteError.dataset_or_0_expected) := by
  unfold run_dt at h ⊢
  cases hrun : run_code E F vm.numbers Machine.init vm.code with
  | error s => left; rfl
  | ok m =>
    simp only [hrun] at h ⊢
    by_cases hsp : m.stackPtr ≠ 0
    · left; simp [hsp]
    · simp only [hsp, if_false] at h ⊢
      generalize m.stack.getD 0 default = top at h ⊢
      by_cases hnew : out = E.kNew
      · subst hnew
        rw [commit_new] at h ⊢
        rcases top with ⟨isn, num, pts, title⟩
        cases isn
        · simp at h
        · by_cases hz : num = 0
          · simp [hz] at h
          · right
            simp only [hz, if_false, Bool.true_eq_false] at h ⊢
            simp only [Outcome.stopped.injEq, Stop.error.injEq] at h
            exact ⟨rfl, trivial, h.symm⟩
      · left
        by_cases hv : 0 ≤ out ∧ out < F.length
        · rw [commit_index E out F top hnew hv.1 hv.2] at h ⊢
          rcases top with ⟨isn, num, pts, title⟩
          cases isn
          · simp at h
          · by_cases hz : num = 0
            · simp [hz] at h
            · simp [hz]
        · rw [commit_no_such E out F top hnew hv]

/-- C7 (evaluation at the failing input): the program "push number 1" with the
create-new target, run on any dataset collection `F`, ends with the error
"dataset or 0 expected on RHS" and leaves the collection `F` extended by one
empty dataset, so the collection is not the one before the call. -/
theorem run_dt_error_after_append (F : List Data) :
    run_dt sample_ext ⟨[0, 0], [1]⟩ sample_ext.kNew F =
      (Outcome.stopped (Stop.error ExecuteError.dataset_or_0_expected), F ++ [⟨[], ""⟩]) ∧
    (F ++ [(⟨[], ""⟩ : Data)]).length = F.length + 1 ∧ F ++ [(⟨[], ""⟩ : Data)] ≠ F := by
  refine ⟨?_, by simp, by simp⟩
  have hrun : run_code sample_ext F [1] Machine.init [0, 0] =
      .ok ({ stack := (List.replicate 6 default).set 0 (⟨true, 1, [], ""⟩ : DtStackItem),
             stackPtr := 0 } : Machine) := by
    rfl
  unfold run_dt
  simp only [hrun, commit_new]
  simp

/-- C8: for every program, target and dataset collection: if a push opcode
(push-number or push-dataset) is reached with six values live on the stack
(`stackPtr` at slot 5), `run_dt` ends with the error "stack overflow" and
leaves the collection as it was; and whenever `run_dt` ends with that error,
such a push has been reached. -/
theorem run_dt_stack_overflow (E : Ext) (vm : VMData) (out : Int) (F : List Data) :
    ((∃ (pre : List Int) (c : Int) (post : List Int) (m : Machine),
        vm.code = pre ++ c :: post ∧
        run_code E F vm.numbers Machine.init pre = .ok m ∧ m.stackPtr = 5 ∧
        (E.op_of c = DtOp.OP_NUMBER ∨ E.op_of c = DtOp.OP_DATASET)) →
      run_dt E vm out F = (Outcome.stopped (Stop.error ExecuteError.stack_overflow), F)) ∧
    ((run_dt E vm out F).1 = Outcome.stopped (Stop.error ExecuteError.stack_overflow) →
      ∃ (pre : List Int) (c : Int) (post : List Int) (m : Machine),
        vm.code = pre ++ c :: post ∧
        run_code E F vm.numbers Machine.init pre = .ok m ∧ m.stackPtr = 5 ∧
        (E.op_of c = DtOp.OP_NUMBER ∨ E.op_of c = DtOp.OP_DATASET)) := by
  constructor
  · rintro ⟨pre, c, post, m, hcode, hrun, hsp, hc⟩
    have h := run_code_append E F vm.numbers pre.length pre (le_refl _) Machine.init m
      (c :: post) hrun
    rw [run_code_push_full E F vm.numbers m c post hsp hc, ← hcode] at h
    unfold run_dt
    simp only [h]
  · intro h
    cases hrun : run_code E F vm.numbers Machine.init vm.code with
    | error s =>
      unfold run_dt at h
      simp only [hrun, Outcome.stopped.injEq] at h
      rw [h] at hrun
      exact run_code_overflow_split E F vm.numbers vm.code.length vm.code (le_refl _)
        Machine.init (by simp [Machine.init]) hrun
    | ok m =>
      exfalso
      have hframe := run_dt_error_frame E vm out F _ h
      unfold run_dt at h hframe
      simp only [hrun] at h hframe
      by_cases hsp : m.stackPtr ≠ 0
      · simp [hsp] at h
      · simp only [hsp, if_false] at h hframe
        generalize m.stack.getD 0 default = top at h hframe
        by_cases hnew : out = E.kNew
        · rcases hframe with hf | ⟨_, _, hf⟩
          · subst hnew
            rw [commit_new] at h
            rcases top with ⟨isn, num, pts, title⟩
            cases isn
            · simp at h
            · by_cases hz : num = 0 <;> simp [hz] at h
          · cases hf
        · by_cases hv : 0 ≤ out ∧ out < F.length
          · rw [commit_index E out F top hnew hv.1 hv.2] at h
            rcases top with ⟨isn, num, pts, title⟩
            cases isn
            · simp at h
            · by_cases hz : num = 0 <;> simp [hz] at h
          · rw [commit_no_such E out F top hnew hv] at h
            simp at h

/-- Witness for C8: seven pushes of a number in a row end with "stack overflow"
and leave the collection as it was. -/
theorem run_dt_stack_overflow_witness :
    run_dt sample_ext ⟨[0, 0, 0, 0, 0, 0, 0, 0, 0, 0, 0, 0, 0, 0], [3]⟩ 0
        [⟨[⟨1, 1, 1, true⟩], "a"⟩] =
      (Outcome.stopped (Stop.error ExecuteError.stack_overflow), [⟨[⟨1, 1, 1, true⟩], "a"⟩]) :=
  (run_dt_stack_overflow sample_ext ⟨[0, 0, 0, 0, 0, 0, 0, 0, 0, 0, 0, 0, 0, 0], [3]⟩ 0
      [⟨[⟨1, 1, 1, true⟩], "a"⟩]).1
    ⟨[0, 0, 0, 0, 0, 0, 0, 0, 0, 0, 0, 0], 0, [0],
     ({ stack := List.replicate 6 (⟨true, 3, [], ""⟩ : DtStackItem), stackPtr := 5 } : Machine),
     rfl, rfl, rfl, Or.inl rfl⟩

/-- C9: finalization of `run_dt`.  Let the program end normally with exactly
one live value `v` (`stackPtr` at slot 0), and let the target selector be the
create-new sentinel or the index of an existing dataset.  The target index is
the previous dataset count for create-new (a dataset appended at the end) and
the given index otherwise.  If `v` is a series the call succeeds and the
collection is the previous one with the target's points and title replaced by
those of `v`; if `v` is the scalar `0` the call succeeds and the target is
cleared; if `v` is any other scalar the call ends with an error.  All datasets
other than the target are unchanged (`List.set` touches one position). -/
theorem run_dt_finalization (E : Ext) (vm : VMData) (out : Int) (F : List Data) (m : Machine)
    (hrun : run_code E F vm.numbers Machine.init vm.code = .ok m) (hsp : m.stackPtr = 0)
    (hout : out = E.kNew ∨ (0 ≤ out ∧ out < F.length)) :
    let v := m.stack.getD 0 default
    let target := if out = E.kNew then F.length else out.toNat
    let base := if out = E.kNew then F ++ [(⟨[], ""⟩ : Data)] else F
    (v.is_num = false →
      run_dt E vm out F = (Outcome.done, base.set target ⟨v.points, v.title⟩)) ∧
    (v.is_num = true → v.num = 0 →
      run_dt E vm out F = (Outcome.done, base.set target ⟨[], ""⟩)) ∧
    (v.is_num = true → v.num ≠ 0 →
      (run_dt E vm out F).1 = Outcome.stopped (Stop.error ExecuteError.dataset_or_0_expected)) ∧
    target < base.length ∧ (out = E.kNew → target = F.length ∧ base.length = F.length + 1) ∧
    (out ≠ E.kNew → base = F) := by
  intro v target base
  have hrd : run_dt E vm out F = commit E out F v := by
    unfold run_dt
    simp only [hrun, hsp, ne_eq, not_true_eq_false, if_false]
  by_cases hnew : out = E.kNew
  · have ht : target = F.length := by simp [target, hnew]
    have hb : base = F ++ [(⟨[], ""⟩ : Data)] := by simp [base, hnew]
    rw [hrd, hnew, commit_new, ht, hb]
    refine ⟨?_, ?_, ?_, by simp, fun _ => ⟨rfl, by simp⟩, fun h => absurd rfl h⟩
    · intro h; simp [h, set_length_append]
    · intro h hz; simp [h, hz, set_length_append]
    · intro h hz; simp [h, hz]
  · have hv : 0 ≤ out ∧ out < F.length := by
      rcases hout with h | h
      · exact absurd h hnew
      · exact h
    have ht : target = out.toNat := by simp [target, hnew]
    have hb : base = F := by simp [base, hnew]
    rw [hrd, commit_index E out F v hnew hv.1 hv.2, ht, hb]
    refine ⟨?_, ?_, ?_, by omega, fun h => absurd h hnew, fun _ => rfl⟩
    · intro h; simp [h]
    · intro h hz; simp [h, hz]
    · intro h hz; simp [h, hz]

/-- Witness for C9: the program "push dataset 0" with target `1` replaces the
points and the title of dataset `1` by those of dataset `0`. -/
theorem run_dt_finalization_witness :
    run_dt sample_ext ⟨[1, 0], []⟩ 1
        [⟨[⟨1, 1, 1, true⟩], "a"⟩, ⟨[⟨2, 2, 1, true⟩], "b"⟩] =
      (Outcome.done, [⟨[⟨1, 1, 1, true⟩], "a"⟩, ⟨[⟨1, 1, 1, true⟩], "a"⟩]) :=
  (run_dt_finalization sample_ext ⟨[1, 0], []⟩ 1
      [⟨[⟨1, 1, 1, true⟩], "a"⟩, ⟨[⟨2, 2, 1, true⟩], "b"⟩]
      ({ stack := (List.replicate 6 default).set 0
          (⟨false, 0, [⟨1, 1, 1, true⟩], "a"⟩ : DtStackItem),
         stackPtr := 0 } : Machine)
      rfl rfl (Or.inr ⟨by decide, by decide⟩)).1 rfl

/-! ### `and` / after-and -/

theorem slot_ok_bounds {m : Machine} {j : Int} {a : DtStackItem} (h : m.slot j = .ok a) :
    0 ≤ j ∧ j < 6 := by
  unfold Machine.slot at h
  split at h
  · assumption
  · cases h

theorem sort_points_sorted (pp : List Point) : SortedByX (sort_points pp) :=
  List.sorted_insertionSort Point.le_x pp

theorem sort_points_perm (pp : List Point) : (sort_points pp).Perm pp :=
  List.perm_insertionSort Point.le_x pp

/-- C10: let the two topmost stack items be `a` (below) and `b` (on top) in a
machine with its six slots.  If both are series, after-and succeeds, lowers
`stackPtr` by one and leaves there a series whose points are a permutation of
the points of `a` followed by those of `b`, sorted non-decreasingly by `x`, of
length `len a + len b`, with title `a.title ++ "&" ++ b.title`; if either item
is a scalar the opcode ends with the error "expected @n on both sides of and". -/
theorem exec_after_and (E : Ext) (c : Int) (m : Machine) (a b : DtStackItem)
    (hlen : m.stack.length = 6)
    (ha : m.slot (m.stackPtr - 1) = .ok a) (hb : m.slot m.stackPtr = .ok b) :
    (a.is_num = false → b.is_num = false →
      ∃ (m1 : Machine) (r : DtStackItem),
        exec_op E c DtOp.OP_AFTER_AND m = .ok m1 ∧ m1.stackPtr = m.stackPtr - 1 ∧
        m1.slot m1.stackPtr = .ok r ∧ r.is_num = false ∧
        r.points.Perm (a.points ++ b.points) ∧ SortedByX r.points ∧
        r.points.length = a.points.length + b.points.length ∧
        r.title = a.title ++ "&" ++ b.title) ∧
    ((a.is_num = true ∨ b.is_num = true) →
      exec_op E c DtOp.OP_AFTER_AND m =
        .error (Stop.error ExecuteError.expected_dataset_on_both_sides)) := by
  have hbd := slot_ok_bounds ha
  have hb1 : m.slot (m.stackPtr - 1 + 1) = .ok b := by rw [sub_add_cancel]; exact hb
  constructor
  · intro han hbn
    refine ⟨{ stack := m.stack.set (m.stackPtr - 1).toNat
                { a with points := sort_points (a.points ++ b.points),
                         title := a.title ++ ("&" ++ b.title) },
              stackPtr := m.stackPtr - 1 },
            { a with points := sort_points (a.points ++ b.points),
                     title := a.title ++ ("&" ++ b.title) }, ?_, rfl, ?_, han,
            sort_points_perm _, sort_points_sorted _, ?_, ?_⟩
    · simp only [exec_op, bind, Except.bind, ha, hb1, han, hbn, Bool.or_self,
        Bool.false_eq_true, if_false, Machine.put, hbd, and_self, if_true]
    · have hk : (m.stackPtr - 1).toNat < m.stack.length := by omega
      simp only [Machine.slot, hbd, and_self, if_true]
      rw [List.getD_eq_getElem _ _ (by simpa using hk)]
      simp
    · rw [(sort_points_perm _).length_eq, List.length_append]
    · simp [String.append_assoc]
  · intro h
    have : (a.is_num || b.is_num) = true := by
      rcases h with h | h <;> simp [h]
    simp only [exec_op, bind, Except.bind, ha, hb1, this, if_true]

/-- Witness for C10: after-and on the series `[(3,1)]` titled "a" and `[(2,5)]`
titled "nt". -/
theorem exec_after_and_witness :
    ∃ (m1 : Machine) (r : DtStackItem),
      exec_op sample_ext 10 DtOp.OP_AFTER_AND
        ({ stack := [⟨false, 0, [⟨3, 1, 1, true⟩], "a"⟩, ⟨false, 0, [⟨2, 5, 1, true⟩], "nt"⟩,
                     default, default, default, default],
           stackPtr := 1 } : Machine) = .ok m1 ∧
      m1.stackPtr = 1 - 1 ∧ m1.slot m1.stackPtr = .ok r ∧ r.is_num = false ∧
      r.points.Perm ([⟨3, 1, 1, true⟩] ++ [⟨2, 5, 1, true⟩]) ∧ SortedByX r.points ∧
      r.points.length = 1 + 1 ∧ r.title = "a" ++ "&" ++ "nt" :=
  (exec_after_and sample_ext 10
      ({ stack := [⟨false, 0, [⟨3, 1, 1, true⟩], "a"⟩, ⟨false, 0, [⟨2, 5, 1, true⟩], "nt"⟩,
                   default, default, default, default],
         stackPtr := 1 } : Machine)
      ⟨false, 0, [⟨3, 1, 1, true⟩], "a"⟩ ⟨false, 0, [⟨2, 5, 1, true⟩], "nt"⟩
      rfl rfl rfl).1 rfl rfl

/-- The program `@i and @j` (push dataset `i`, push dataset `j`, and, after-and)
leaves one series: the points of both datasets sorted by `x`, titled with the
two titles (an empty one replaced by "nt") joined by "&". -/
theorem run_code_and_program (E : Ext) (F : List Data) (numbers : List ℚ)
    (cD cAnd cAfter i j : Int) (hD : E.op_of cD = DtOp.OP_DATASET)
    (hAnd : E.op_of cAnd = DtOp.OP_AND) (hAfter : E.op_of cAfter = DtOp.OP_AFTER_AND)
    (A B : Data) (hi : get_data F i = .ok A) (hj : get_data F j = .ok B) :
    ∃ m : Machine,
      run_code E F numbers Machine.init [cD, i, cD, j, cAnd, cAfter] = .ok m ∧
      m.stackPtr = 0 ∧
      m.stack.getD 0 default =
        ⟨false, 0, sort_points (A.points ++ B.points),
          (if A.title = "" then "nt" else A.title) ++
            ("&" ++ (if B.title = "" then "nt" else B.title))⟩ := by
  have hAnd1 : E.op_of cAnd ≠ DtOp.OP_NUMBER := by rw [hAnd]; decide
  have hAnd2 : E.op_of cAnd ≠ DtOp.OP_DATASET := by rw [hAnd]; decide
  have hAf1 : E.op_of cAfter ≠ DtOp.OP_NUMBER := by rw [hAfter]; decide
  have hAf2 : E.op_of cAfter ≠ DtOp.OP_DATASET := by rw [hAfter]; decide
  rw [run_code_dataset hD]
  simp only [exec_dataset, Machine.init, Machine.slot, Machine.put, hi, hj, bind, Except.bind]
  norm_num
  rw [run_code_dataset hD]
  simp only [exec_dataset, Machine.slot, Machine.put, hi, hj, bind, Except.bind]
  norm_num
  rw [run_code_other hAnd1 hAnd2, hAnd]
  simp only [exec_op, Except.bind]
  rw [run_code_other hAf1 hAf2, hAfter]
  simp only [exec_op, Machine.slot, Machine.put, bind, Except.bind, run_code]
  norm_num [List.replicate]
  rfl

/-! ### The bisection on arbitrary sequences -/

/-- Whatever the order of the points, the bisection ends between a point it has
seen below the query and a point it has seen not below it (or at an end of the
range it never moved away from). -/
theorem lower_bound_loop_bracket (pp : List Point) (x : ℚ) :
    ∀ (fuel first len : Nat), len ≤ fuel → first + len ≤ pp.length →
      (first = 0 ∨ (pp.getD (first - 1) default).x < x) →
      (first + len = pp.length ∨ ¬ (pp.getD (first + len) default).x < x) →
      lower_bound_loop pp x fuel first len ≤ pp.length ∧
      (lower_bound_loop pp x fuel first len = 0 ∨
        (pp.getD (lower_bound_loop pp x fuel first len - 1) default).x < x) ∧
      (lower_bound_loop pp x fuel first len = pp.length ∨
        ¬ (pp.getD (lower_bound_loop pp x fuel first len) default).x < x) := by
  intro fuel
  induction fuel with
  | zero =>
    intro first len hlen hb hlo hhi
    have h0 : len = 0 := Nat.le_zero.mp hlen
    subst h0
    simp only [lower_bound_loop]
    exact ⟨hb, hlo, hhi⟩
  | succ fuel ih =>
    intro first len hlen hb hlo hhi
    by_cases h0 : len = 0
    · subst h0
      simp only [lower_bound_loop, if_true]
      exact ⟨hb, hlo, hhi⟩
    · have hhalf : len / 2 < len := Nat.div_lt_self (Nat.pos_of_ne_zero h0) (by decide)
      by_cases hc : (pp.getD (first + len / 2) default).x < x
      · have hrec := ih (first + len / 2 + 1) (len - len / 2 - 1) (by omega) (by omega)
          (Or.inr (by simpa using hc))
          (by
            have he : first + len / 2 + 1 + (len - len / 2 - 1) = first + len := by omega
            rw [he]; exact hhi)
        simp only [lower_bound_loop, h0, if_false, hc, if_true]
        exact hrec
      · have hrec := ih first (len / 2) (by omega) (by omega) hlo (Or.inr hc)
        simp only [lower_bound_loop, h0, if_false, hc]
        exact hrec

/-- Strictly between the `x` of the first and of the last point, the search
lands strictly inside the sequence, just after a point below the query and on
a point not below it; the sequence need not be sorted for this. -/
theorem lower_bound_bracket (pp : List Point) (x : ℚ) (hlen : 0 < pp.length)
    (hfront : (pp.getD 0 default).x < x)
    (hback : x < (pp.getD (pp.length - 1) default).x) :
    0 < lower_bound pp x ∧ lower_bound pp x < pp.length ∧
    (pp.getD (lower_bound pp x - 1) default).x < x ∧
    x ≤ (pp.getD (lower_bound pp x) default).x := by
  have h := lower_bound_loop_bracket pp x pp.length 0 pp.length (le_refl _) (by omega)
    (Or.inl rfl) (Or.inl (by omega))
  have hr : lower_bound_loop pp x pp.length 0 pp.length = lower_bound pp x := rfl
  rw [hr] at h
  obtain ⟨hle, hlo, hhi⟩ := h
  have h0 : 0 < lower_bound pp x := by
    by_contra hn
    have hz : lower_bound pp x = 0 := by omega
    rcases hhi with hh | hh
    · omega
    · rw [hz] at hh; exact hh hfront
  have hn : lower_bound pp x < pp.length := by
    by_contra hn
    have hz : lower_bound pp x = pp.length := by omega
    rcases hlo with hh | hh
    · omega
    · rw [hz] at hh; exact absurd hback (not_lt.mpr (le_of_lt hh))
  refine ⟨h0, hn, ?_, ?_⟩
  · rcases hlo with hh | hh
    · omega
    · exact hh
  · rcases hhi with hh | hh
    · omega
    · exact not_lt.mp hh

/-- `find_extrapolated_y` always returns a number: the `assert` holds and the
denominator of the interpolation is positive, sorted input or not. -/
theorem find_extrapolated_y_value (is_eq : ℚ → ℚ → Bool) (pp : List Point) (x : ℚ) :
    ∃ v, find_extrapolated_y is_eq pp x = .ok v := by
  cases pp with
  | nil => exact ⟨0, rfl⟩
  | cons p ps =>
    by_cases h1 : x ≤ p.x
    · exact ⟨p.y, by simp only [find_extrapolated_y, h1, if_true]⟩
    · by_cases h2 : x ≥ ((p :: ps).getLast (List.cons_ne_nil p ps)).x
      · exact ⟨((p :: ps).getLast (List.cons_ne_nil p ps)).y, by
          simp only [find_extrapolated_y, h1, if_false, h2, if_true]⟩
      · have hback : x < ((p :: ps).getD ((p :: ps).length - 1) default).x := by
          rw [← getLast_cons_eq_getD]; exact not_le.mp h2
        obtain ⟨h0, hn, hlo, hhi⟩ := lower_bound_bracket (p :: ps) x (by simp)
          (by simpa using not_le.mp h1) hback
        have hden : ¬ ((p :: ps).getD (lower_bound (p :: ps) x) default).x -
            ((p :: ps).getD (lower_bound (p :: ps) x - 1) default).x = 0 := by
          intro h; linarith
        have hin : find_extrapolated_y is_eq (p :: ps) x =
            (if is_eq x ((p :: ps).getD (lower_bound (p :: ps) x) default).x then
              .ok ((p :: ps).getD (lower_bound (p :: ps) x) default).y
             else .ok (((p :: ps).getD (lower_bound (p :: ps) x - 1) default).y +
              (((p :: ps).getD (lower_bound (p :: ps) x) default).y -
                ((p :: ps).getD (lower_bound (p :: ps) x - 1) default).y) *
              (((p :: ps).getD (lower_bound (p :: ps) x) default).x - x) /
              (((p :: ps).getD (lower_bound (p :: ps) x) default).x -
                ((p :: ps).getD (lower_bound (p :: ps) x - 1) default).x))) := by
          simp only [find_extrapolated_y, h1, h2, if_false, h0, hn, and_self,
            not_true_eq_false, hden]
        rw [hin]
        split
        · exact ⟨_, rfl⟩
        · exact ⟨_, rfl⟩

/-- C18: for every point sequence `P` (sorted by `x` or not) and every query `x`
with `P.first.x < x < P.last.x`, the position `i` returned by the lower-bound
search is strictly after the first position and strictly before the end (the
`assert` holds, so `i` and `i-1` are valid), the points at `i-1` and `i`
bracket the query, the denominator `i->x - (i-1)->x` is non-zero, and
`find_extrapolated_y` returns a number. -/
theorem find_extrapolated_y_assert_holds (is_eq : ℚ → ℚ → Bool) (p : Point)
    (ps : List Point) (x : ℚ) (hfront : p.x < x)
    (hback : x < ((p :: ps).getLast (List.cons_ne_nil p ps)).x) :
    0 < lower_bound (p :: ps) x ∧ lower_bound (p :: ps) x < (p :: ps).length ∧
    ((p :: ps).getD (lower_bound (p :: ps) x - 1) default).x < x ∧
    x ≤ ((p :: ps).getD (lower_bound (p :: ps) x) default).x ∧
    ((p :: ps).getD (lower_bound (p :: ps) x) default).x -
      ((p :: ps).getD (lower_bound (p :: ps) x - 1) default).x ≠ 0 ∧
    find_extrapolated_y is_eq (p :: ps) x ≠ .error Fault.assert_failed ∧
    find_extrapolated_y is_eq (p :: ps) x ≠ .error Fault.division_by_zero := by
  have hb : x < ((p :: ps).getD ((p :: ps).length - 1) default).x := by
    rw [← getLast_cons_eq_getD]; exact hback
  obtain ⟨h0, hn, hlo, hhi⟩ := lower_bound_bracket (p :: ps) x (by simp)
    (by simpa using hfront) hb
  obtain ⟨v, hv⟩ := find_extrapolated_y_value is_eq (p :: ps) x
  refine ⟨h0, hn, hlo, hhi, ?_, ?_, ?_⟩
  · intro h; linarith
  · rw [hv]; simp
  · rw [hv]; simp

/-- Witness for C18: on `(0,0), (2,1), (4,4)` and the query `3` the search returns
position `2`. -/
theorem find_extrapolated_y_assert_holds_witness :
    (0 : ℚ) < 3 ∧ (3 : ℚ) < 4 ∧
    0 < lower_bound [⟨0, 0, 1, true⟩, ⟨2, 1, 1, true⟩, ⟨4, 4, 1, true⟩] 3 ∧
    lower_bound [⟨0, 0, 1, true⟩, ⟨2, 1, 1, true⟩, ⟨4, 4, 1, true⟩] 3 < 3 :=
  ⟨by norm_num, by norm_num,
   (find_extrapolated_y_assert_holds exact_eq ⟨0, 0, 1, true⟩
      [⟨2, 1, 1, true⟩, ⟨4, 4, 1, true⟩] 3 (by norm_num) (by norm_num)).1,
   (find_extrapolated_y_assert_holds exact_eq ⟨0, 0, 1, true⟩
      [⟨2, 1, 1, true⟩, ⟨4, 4, 1, true⟩] 3 (by norm_num) (by norm_num)).2.1⟩

/-! ### Arithmetic opcodes -/

theorem combine_points_eq (is_eq : ℚ → ℚ → Bool) (sign : ℚ) (pp other : List Point)
    (val : Point → ℚ) (h : ∀ j ∈ pp, find_extrapolated_y is_eq other j.x = .ok (val j)) :
    combine_points is_eq sign pp other =
      .ok (pp.map (fun j => { j with y := j.y + sign * val j })) := by
  unfold combine_points
  induction pp with
  | nil => rfl
  | cons a pp ih =>
    have ha := h a (by simp)
    have := ih (fun j hj => h j (by simp [hj]))
    rw [List.mapM_cons, ha, this]
    rfl

/-- Adding or subtracting the interpolated values of another series never fails. -/
theorem combine_points_value (is_eq : ℚ → ℚ → Bool) (sign : ℚ) (pp other : List Point) :
    ∃ pts, combine_points is_eq sign pp other = .ok pts :=
  ⟨_, combine_points_eq is_eq sign pp other
    (fun j => Classical.choose (find_extrapolated_y_value is_eq other j.x))
    (fun j _ => Classical.choose_spec (find_extrapolated_y_value is_eq other j.x))⟩

theorem put_ok_of_bounds (m : Machine) (sp j : Int) (v : DtStackItem) (h : 0 ≤ j ∧ j < 6) :
    m.put sp j v = .ok { stack := m.stack.set j.toNat v, stackPtr := sp } := by
  simp only [Machine.put, h, and_self, if_true]

/-- C11: arithmetic typing of the machine.  With `a` the item below the top and
`b` the top item: add and sub end with an error exactly when one of `a`, `b`
is a scalar and the other a series, and succeed when both are of the same
kind; mul ends with an error exactly when both are series, and succeeds in the
three other combinations. -/
theorem exec_arith_typing (E : Ext) (c : Int) (m : Machine) (a b : DtStackItem)
    (ha : m.slot (m.stackPtr - 1) = .ok a) (hb : m.slot m.stackPtr = .ok b) :
    ((∃ e, exec_op E c DtOp.OP_ADD m = .error (Stop.error e)) ↔ a.is_num ≠ b.is_num) ∧
    (a.is_num = b.is_num → ∃ m1, exec_op E c DtOp.OP_ADD m = .ok m1) ∧
    ((∃ e, exec_op E c DtOp.OP_SUB m = .error (Stop.error e)) ↔ a.is_num ≠ b.is_num) ∧
    (a.is_num = b.is_num → ∃ m1, exec_op E c DtOp.OP_SUB m = .ok m1) ∧
    ((∃ e, exec_op E c DtOp.OP_MUL m = .error (Stop.error e)) ↔
      (a.is_num = false ∧ b.is_num = false)) ∧
    (¬ (a.is_num = false ∧ b.is_num = false) → ∃ m1, exec_op E c DtOp.OP_MUL m = .ok m1) := by
  have hbd := slot_ok_bounds ha
  have hbd1 : 0 ≤ m.stackPtr - 1 + 1 ∧ m.stackPtr - 1 + 1 < 6 := by
    rw [sub_add_cancel]; exact slot_ok_bounds hb
  have hb1 : m.slot (m.stackPtr - 1 + 1) = .ok b := by rw [sub_add_cancel]; exact hb
  have hbd2 := slot_ok_bounds hb
  obtain ⟨padd, hadd⟩ := combine_points_value E.is_eq 1 a.points b.points
  obtain ⟨psub, hsub⟩ := combine_points_value E.is_eq (-1) a.points b.points
  rcases a with ⟨an, anum, apts, atitle⟩
  rcases b with ⟨bn, bnum, bpts, btitle⟩
  cases an <;> cases bn <;>
    simp [exec_op, bind, Except.bind, ha, hb, hb1, hadd, hsub, put_ok_of_bounds, hbd, hbd1,
      hbd2]

/-- Witness for C11: adding the scalar `0` to a series is an error. -/
theorem exec_arith_typing_witness :
    ∃ e, exec_op sample_ext 3 DtOp.OP_ADD
      ({ stack := [⟨false, 0, [⟨3, 1, 1, true⟩], "a"⟩, ⟨true, 0, [], ""⟩,
                   default, default, default, default],
         stackPtr := 1 } : Machine) = .error (Stop.error e) :=
  (exec_arith_typing sample_ext 3
      ({ stack := [⟨false, 0, [⟨3, 1, 1, true⟩], "a"⟩, ⟨true, 0, [], ""⟩,
                   default, default, default, default],
         stackPtr := 1 } : Machine)
      ⟨false, 0, [⟨3, 1, 1, true⟩], "a"⟩ ⟨true, 0, [], ""⟩ rfl rfl).1.mpr (by decide)

theorem slot_put_same (m : Machine) (sp j : Int) (v : DtStackItem) (h : 0 ≤ j ∧ j < 6)
    (hlen : m.stack.length = 6) :
    ({ stack := m.stack.set j.toNat v, stackPtr := sp } : Machine).slot j = .ok v := by
  have hk : j.toNat < (m.stack.set j.toNat v).length := by
    rw [List.length_set, hlen]; omega
  simp only [Machine.slot, h, and_self, if_true]
  rw [List.getD_eq_getElem _ _ hk]
  simp

/-- C12: multiplying a series by a scalar.  With `a` the item below the top and
`b` the top item of a six-slot machine: for a series `a` and a scalar `b`
(`D * k`), and for a scalar `a` and a series `b` (`k * D`), mul succeeds, lowers
`stackPtr` by one and leaves there a series with the points of `D` in the same
order, each `y` multiplied by `k` and `x`, `sigma`, `is_active` unchanged - the
same point sequence for both orders; the title is `title ++ "*" ++ S(k)` for
`D * k` and `S(k) ++ "*" ++ title` for `k * D`.  Multiplying by `1` leaves the
points as they are. -/
theorem exec_mul_scalar (E : Ext) (c : Int) (m : Machine) (a b : DtStackItem)
    (hlen : m.stack.length = 6)
    (ha : m.slot (m.stackPtr - 1) = .ok a) (hb : m.slot m.stackPtr = .ok b) :
    (a.is_num = false → b.is_num = true →
      ∃ (m1 : Machine) (r : DtStackItem),
        exec_op E c DtOp.OP_MUL m = .ok m1 ∧ m1.stackPtr = m.stackPtr - 1 ∧
        m1.slot m1.stackPtr = .ok r ∧ r.is_num = false ∧
        r.points = a.points.map (fun j => { j with y := j.y * b.num }) ∧
        r.title = a.title ++ "*" ++ E.S b.num) ∧
    (a.is_num = true → b.is_num = false →
      ∃ (m1 : Machine) (r : DtStackItem),
        exec_op E c DtOp.OP_MUL m = .ok m1 ∧ m1.stackPtr = m.stackPtr - 1 ∧
        m1.slot m1.stackPtr = .ok r ∧ r.is_num = false ∧
        r.points = b.points.map (fun j => { j with y := j.y * a.num }) ∧
        r.title = E.S a.num ++ "*" ++ b.title) ∧
    (∀ (D : List Point) (k : ℚ),
      (D.map (fun j => ({ j with y := j.y * k } : Point))).length = D.length) ∧
    (∀ D : List Point, D.map (fun j => ({ j with y := j.y * 1 } : Point)) = D) := by
  have hbd := slot_ok_bounds ha
  have hbd2 := slot_ok_bounds hb
  have hb1 : m.slot (m.stackPtr - 1 + 1) = .ok b := by rw [sub_add_cancel]; exact hb
  have hbd1 : 0 ≤ m.stackPtr - 1 + 1 ∧ m.stackPtr - 1 + 1 < 6 := by
    rw [sub_add_cancel]; exact hbd2
  refine ⟨?_, ?_, fun D k => List.length_map _ _, ?_⟩
  · intro han hbn
    refine ⟨{ stack := m.stack.set (m.stackPtr - 1).toNat
                { a with points := scale_points b.num a.points,
                         title := a.title ++ ("*" ++ E.S b.num) },
              stackPtr := m.stackPtr - 1 },
            { a with points := scale_points b.num a.points,
                     title := a.title ++ ("*" ++ E.S b.num) }, ?_, rfl, ?_, han, rfl, ?_⟩
    · simp only [exec_op, bind, Except.bind, ha, hb1, han, hbn, Bool.false_and,
        Bool.false_eq_true, if_false, Bool.not_false, Bool.not_true, Bool.and_self,
        Bool.true_and, if_true, put_ok_of_bounds m _ _ _ hbd]
    · exact slot_put_same m _ _ _ hbd hlen
    · simp [String.append_assoc]
  · intro han hbn
    refine ⟨{ stack := (m.stack.set (m.stackPtr - 1 + 1).toNat { b with points := a.points }).set
                (m.stackPtr - 1).toNat
                { a with is_num := false, points := scale_points a.num b.points,
                         title := E.S a.num ++ "*" ++ b.title },
              stackPtr := m.stackPtr - 1 },
            { a with is_num := false, points := scale_points a.num b.points,
                     title := E.S a.num ++ "*" ++ b.title }, ?_, rfl, ?_, rfl, rfl, rfl⟩
    · simp only [exec_op, bind, Except.bind, ha, hb1, han, hbn, Bool.true_and,
        Bool.false_eq_true, if_false, Bool.not_false, Bool.not_true, Bool.and_false,
        Bool.and_true, Bool.false_and, Machine.put, hbd, and_self, if_true]
      rw [if_pos hbd1]
    · exact slot_put_same
        { stack := m.stack.set (m.stackPtr - 1 + 1).toNat { b with points := a.points },
          stackPtr := m.stackPtr - 1 } _ _ _ hbd (by simp [hlen])
  · intro D
    induction D with
    | nil => rfl
    | cons p D ih => simp [ih]

/-- Witness for C12: the series `[(3,2)]` titled "a" times the scalar `5`. -/
theorem exec_mul_scalar_witness :
    ∃ (m1 : Machine) (r : DtStackItem),
      exec_op sample_ext 5 DtOp.OP_MUL
        ({ stack := [⟨false, 0, [⟨3, 2, 1, true⟩], "a"⟩, ⟨true, 5, [], ""⟩,
                     default, default, default, default],
           stackPtr := 1 } : Machine) = .ok m1 ∧
      m1.stackPtr = 1 - 1 ∧ m1.slot m1.stackPtr = .ok r ∧ r.is_num = false ∧
      r.points = [(⟨3, 2, 1, true⟩ : Point)].map (fun j => { j with y := j.y * 5 }) ∧
      r.title = "a" ++ "*" ++ sample_ext.S 5 :=
  (exec_mul_scalar sample_ext 5
      ({ stack := [⟨false, 0, [⟨3, 2, 1, true⟩], "a"⟩, ⟨true, 5, [], ""⟩,
                   default, default, default, default],
         stackPtr := 1 } : Machine)
      ⟨false, 0, [⟨3, 2, 1, true⟩], "a"⟩ ⟨true, 5, [], ""⟩ rfl rfl rfl).1 rfl rfl

/-! ### A dataset minus itself -/

theorem getD_set_ne (l : List ℚ) (i k : Nat) (a : ℚ) (h : i ≠ k) :
    (l.set i a).getD k 0 = l.getD k 0 := by
  simp [List.getD_eq_getElem?_getD, List.getElem?_set_ne h]

theorem getD_set_zero (l : List ℚ) (i : Nat) (h : ∀ k, l.getD k 0 = 0) :
    ∀ k, (l.set i 0).getD k 0 = 0 := by
  intro k
  by_cases hik : i = k
  · subst hik
    rw [List.getD_eq_getElem?_getD, List.getElem?_set]
    by_cases hl : i < l.length <;> simp [hl]
  · rw [getD_set_ne l i k 0 hik]; exact h k

theorem getD_map_range (n : Nat) (f : Nat → ℚ) (i : Nat) (hi : i < n) :
    ((List.range n).map f).getD i 0 = f i := by
  simp [List.getD_eq_getElem?_getD, List.getElem?_range hi]

theorem getD_map_range_ge (n : Nat) (f : Nat → ℚ) (i : Nat) (hi : n ≤ i) :
    ((List.range n).map f).getD i 0 = 0 := by
  rw [List.getD_eq_getElem?_getD, List.getElem?_eq_none (by simpa using hi)]
  rfl

/-- Integrating an all-zero signal over an all-zero `PA` leaves `PA` all zero. -/
theorem shirley_integrate_zero (pp : List Point) (Y PA : List ℚ) (n : Nat)
    (hY : ∀ i, Y.getD i 0 = 0) (hPA : ∀ k, PA.getD k 0 = 0) :
    ∀ k, (shirley_integrate pp Y PA n).getD k 0 = 0 := by
  unfold shirley_integrate
  generalize List.range' 1 (n - 1) = l
  induction l generalizing PA with
  | nil => exact hPA
  | cons i l ih =>
    simp only [List.foldl_cons]
    apply ih
    rw [hPA, hY, hY]
    have hz : (0 : ℚ) + (0 + 0) / 2 * ((pp.getD i default).x - (pp.getD (i - 1) default).x) = 0 := by
      ring
    rw [hz]
    exact getD_set_zero PA i hPA

/-- The first pass of the loop never stops at the convergence test: with no
previous integral the relative difference counts as `1`, so the pass goes on to
the rescaling step. -/
theorem shirley_loop_first (pp : List Point) (n : Nat) (ya dy : ℚ) (left : Nat)
    (B PA : List ℚ) :
    shirley_loop pp n ya dy (left + 1) B PA 0 =
      if (shirley_integrate pp ((List.range n).map
            (fun i => (pp.getD i default).y - B.getD i 0)) PA n).getD (n - 1) 0 = 0 then
        .error Fault.division_by_zero
      else
        shirley_loop pp n ya dy left
          ((List.range n).map (fun i => ya + dy /
            (shirley_integrate pp ((List.range n).map
              (fun i => (pp.getD i default).y - B.getD i 0)) PA n).getD (n - 1) 0 *
            (shirley_integrate pp ((List.range n).map
              (fun i => (pp.getD i default).y - B.getD i 0)) PA n).getD i 0))
          (shirley_integrate pp ((List.range n).map
            (fun i => (pp.getD i default).y - B.getD i 0)) PA n)
          ((shirley_integrate pp ((List.range n).map
            (fun i => (pp.getD i default).y - B.getD i 0)) PA n).getD (n - 1) 0) := by
  have h1 : ¬ ((1 : ℚ) < 1 / 1000000) := by norm_num
  simp only [shirley_loop, ne_eq, not_true_eq_false, if_false, h1]

/-- On every non-empty series whose points all have the same `y`, the first
pass finds a zero total integral and the rescaling step divides by it. -/
theorem shirley_bg_flat (pp : List Point) (c : ℚ) (hne : pp ≠ [])
    (hflat : ∀ p ∈ pp, p.y = c) : shirley_bg pp = .error Fault.division_by_zero := by
  have hn : pp.length ≠ 0 := fun h => hne (List.length_eq_zero.mp h)
  have hy : ∀ i, i < pp.length → (pp.getD i default).y = c := by
    intro i hi
    rw [List.getD_eq_getElem pp default hi]
    exact hflat _ (List.getElem_mem _)
  have hY : ∀ i, ((List.range pp.length).map (fun i => (pp.getD i default).y -
      (List.replicate pp.length (pp.getD 0 default).y).getD i 0)).getD i 0 = 0 := by
    intro i
    by_cases hi : i < pp.length
    · rw [getD_map_range _ _ _ hi, hy i hi, hy 0 (by omega)]
      simp [List.getD_eq_getElem?_getD, List.getElem?_replicate, hi]
    · exact getD_map_range_ge _ _ _ (by omega)
  have hPA : ∀ k, (List.replicate pp.length (0 : ℚ)).getD k 0 = 0 := by
    intro k
    simp only [List.getD_eq_getElem?_getD, List.getElem?_replicate]
    split <;> rfl
  have hz := shirley_integrate_zero pp _ _ pp.length hY hPA (pp.length - 1)
  unfold shirley_bg
  simp only [hn, if_false]
  rw [shirley_loop_first, if_pos hz]

/-- C14 (evaluation at the failing input): on the flat series `(0,5), (1,5)` the
first pass finds the total integral `0`, does not stop, and divides by that
integral in the rescaling step, so the y-values do not stay `5` (in `double`
arithmetic they become NaN). -/
theorem shirley_bg_flat_two_points :
    shirley_bg [⟨0, 5, 1, true⟩, ⟨1, 5, 1, true⟩] = .error Fault.division_by_zero ∧
    shirley_bg [⟨0, 5, 1, true⟩, ⟨1, 5, 1, true⟩] ≠
      .ok [⟨0, 5, 1, true⟩, ⟨1, 5, 1, true⟩] := by
  have h := shirley_bg_flat [⟨0, 5, 1, true⟩, ⟨1, 5, 1, true⟩] 5 (List.cons_ne_nil _ _)
    (by intro p hp; simp at hp; rcases hp with h | h <;> rw [h])
  exact ⟨h, by rw [h]; simp⟩

/-- C15 (evaluation at the failing inputs): every single-point series has total
integral `0`, and the rescaling step of the first pass divides by it: there is
no guard, and the background is not left unchanged. -/
theorem shirley_bg_single_point (p : Point) :
    shirley_bg [p] = .error Fault.division_by_zero ∧
    (shirley_integrate [p] [p.y - p.y] [0] 1).getD (1 - 1) 0 = 0 :=
  ⟨shirley_bg_flat [p] p.y (List.cons_ne_nil _ _)
    (by intro q hq; rw [List.mem_singleton.mp hq]), rfl⟩

/-- C16 (evaluation at the failing input): on the series `(0,0), (1,-2)` the
total integral of the first pass is `-1` and that of the second pass is `0`;
the loop exits in its second pass (`iter = 1`, before 50 iterations) although
the relative change `|0 - (-1)| / |-1| = 1` is not below `1e-6`: the test
divides by the signed `old_A = -1`, which gives `-1 < 1e-6`. -/
theorem shirley_loop_negative_integral :
    shirley_loop [⟨0, 0, 1, true⟩, ⟨1, -2, 1, true⟩] 2 0 (-2 - 0) 50 [0, 0] [0, 0] 0 =
      .ok ⟨[0, -2], 1⟩ ∧
    (shirley_integrate [⟨0, 0, 1, true⟩, ⟨1, -2, 1, true⟩] [0 - 0, -2 - 0] [0, 0] 2).getD 1 0
      = -1 ∧
    (shirley_integrate [⟨0, 0, 1, true⟩, ⟨1, -2, 1, true⟩] [0 - 0, -2 - -2] [0, -1] 2).getD 1 0
      = 0 ∧
    ¬ (|(0 : ℚ) - -1| / |(-1 : ℚ)| < 1 / 1000000) ∧
    |(0 : ℚ) - -1| / (-1) < 1 / 1000000 := by
  refine ⟨?_, ?_, ?_, by norm_num, by norm_num⟩
  · simp [shirley_loop, shirley_integrate, List.range_succ]
    norm_num
  · simp [shirley_integrate]
  · simp [shirley_integrate]

/-- C19 (evaluation at the failing input): on the empty series `shirley_bg` reads
`pp[0]` (and `pp[n-1]` with `n = 0`), outside the vector; the program
"push dataset 0, background-estimate" hands it the empty dataset `0`. -/
theorem shirley_bg_empty :
    shirley_bg [] = .error Fault.out_of_range ∧
    run_dt sample_ext ⟨[1, 0, 8], []⟩ 0 [⟨[], "e"⟩] =
      (Outcome.stopped (Stop.fault Fault.out_of_range), [⟨[], "e"⟩]) :=
  ⟨rfl, rfl⟩

/-- One pass of the loop, with `PA1` the integral it computes. -/
theorem shirley_loop_succ (pp : List Point) (n : Nat) (ya dy : ℚ) (left : Nat)
    (B PA : List ℚ) (old_A : ℚ) (PA1 : List ℚ)
    (h : shirley_integrate pp ((List.range n).map
      (fun i => (pp.getD i default).y - B.getD i 0)) PA n = PA1) :
    shirley_loop pp n ya dy (left + 1) B PA old_A =
      if (if old_A ≠ 0 then |PA1.getD (n - 1) 0 - old_A| / old_A else 1) < 1 / 1000000 then
        .ok ⟨B, 50 - (left + 1)⟩
      else if PA1.getD (n - 1) 0 = 0 then .error Fault.division_by_zero
      else
        shirley_loop pp n ya dy left
          ((List.range n).map (fun i => ya + dy / PA1.getD (n - 1) 0 * PA1.getD i 0)) PA1
          (PA1.getD (n - 1) 0) := by
  subst h
  simp only [shirley_loop]

/-- The loop fails in one way only: a rescaling step meets a zero total integral. -/
theorem shirley_loop_error (pp : List Point) (n : Nat) (ya dy : ℚ) :
    ∀ (left : Nat) (B PA : List ℚ) (old_A : ℚ) (f : Fault),
      shirley_loop pp n ya dy left B PA old_A = .error f → f = Fault.division_by_zero := by
  intro left
  induction left with
  | zero =>
    intro B PA old_A f h
    simp only [shirley_loop] at h
    cases h
  | succ left ih =>
    intro B PA old_A f h
    rw [shirley_loop_succ pp n ya dy left B PA old_A _ rfl] at h
    generalize shirley_integrate pp
      ((List.range n).map (fun i => (pp.getD i default).y - B.getD i 0)) PA n = PA1 at h
    by_cases hstop : (if old_A ≠ 0 then |PA1.getD (n - 1) 0 - old_A| / old_A else 1)
        < 1 / 1000000
    · rw [if_pos hstop] at h; cases h
    · rw [if_neg hstop] at h
      by_cases hA : PA1.getD (n - 1) 0 = 0
      · rw [if_pos hA] at h; cases h; rfl
      · rw [if_neg hA] at h
        exact ih _ _ _ f h

/-- `shirley_bg` ends normally unless the series is empty or a rescaling step
meets a zero total integral. -/
theorem shirley_bg_error_cases (pp : List Point) (f : Fault) (h : shirley_bg pp = .error f) :
    (pp = [] ∧ f = Fault.out_of_range) ∨ (pp ≠ [] ∧ f = Fault.division_by_zero) := by
  unfold shirley_bg at h
  by_cases hn : pp.length = 0
  · left
    simp only [hn, if_true] at h
    cases h
    exact ⟨List.length_eq_zero.mp hn, rfl⟩
  · right
    simp only [hn, if_false] at h
    refine ⟨fun he => hn (by rw [he]; rfl), ?_⟩
    split at h
    · rename_i f1 hl
      cases h
      exact shirley_loop_error pp _ _ _ _ _ _ _ _ hl
    · cases h

theorem put_ok_ge {m m1 : Machine} {sp : Int} {v : DtStackItem}
    (h : m.put sp sp v = .ok m1) : 0 ≤ m1.stackPtr := by
  unfold Machine.put at h
  split at h
  · rename_i hb
    cases h; exact hb.1
  · cases h

/-- An opcode that ends normally leaves `stackPtr` at `-1` or above. -/
theorem exec_op_stackPtr_ge (E : Ext) (c : Int) (op : DtOp) (m m1 : Machine)
    (hm : -1 ≤ m.stackPtr) (h : exec_op E c op m = .ok m1) : -1 ≤ m1.stackPtr := by
  cases op <;> simp only [exec_op, bind, Except.bind] at h <;>
    (repeat' split at h) <;>
    first
    | exact le_trans (by norm_num) (put_ok_ge h)
    | (cases h; done)
    | (cases h; exact hm)

/-- Along every run from the initial state `stackPtr` stays between `-1` and `5`. -/
theorem run_code_stackPtr_range (E : Ext) (F : List Data) (numbers : List ℚ) :
    ∀ (n : Nat) (code : List Int), code.length ≤ n → ∀ (m m1 : Machine),
      -1 ≤ m.stackPtr → m.stackPtr ≤ 5 → run_code E F numbers m code = .ok m1 →
      -1 ≤ m1.stackPtr ∧ m1.stackPtr ≤ 5 := by
  intro n
  induction n with
  | zero =>
    intro code hlen m m1 h1 h2 h
    have : code = [] := List.length_eq_zero.mp (Nat.le_zero.mp hlen)
    subst this
    simp only [run_code] at h
    cases h; exact ⟨h1, h2⟩
  | succ n ih =>
    intro code hlen m m1 hm1 hm2 h
    cases code with
    | nil => simp only [run_code] at h; cases h; exact ⟨hm1, hm2⟩
    | cons c code =>
      by_cases hn : E.op_of c = DtOp.OP_NUMBER
      · cases code with
        | nil =>
          rw [run_code_number_end hn] at h
          exact absurd rfl (exec_number_ok h).2.2
        | cons idx code =>
          rw [run_code_number hn] at h
          cases hx : exec_number numbers m (some idx) with
          | error e => rw [hx] at h; cases h
          | ok m2 =>
            rw [hx] at h
            have hk := exec_number_ok hx
            exact ih code (by simp at hlen; omega) m2 m1 (by omega) (by omega) h
      · by_cases hd : E.op_of c = DtOp.OP_DATASET
        · cases code with
          | nil =>
            rw [run_code_dataset_end hd] at h
            exact absurd rfl (exec_dataset_ok h).2.2
          | cons idx code =>
            rw [run_code_dataset hd] at h
            cases hx : exec_dataset F m (some idx) with
            | error e => rw [hx] at h; cases h
            | ok m2 =>
              rw [hx] at h
              have hk := exec_dataset_ok hx
              exact ih code (by simp at hlen; omega) m2 m1 (by omega) (by omega) h
        · rw [run_code_other hn hd] at h
          cases hx : exec_op E c (E.op_of c) m with
          | error e => rw [hx] at h; cases h
          | ok m2 =>
            rw [hx] at h
            have hk := exec_op_stackPtr E c _ m m2 hx
            have hg := exec_op_stackPtr_ge E c _ m m2 hm1 hx
            exact ih code (by simp at hlen; omega) m2 m1 hg (by omega) h

theorem slot_eq_ok (m : Machine) (j : Int) (h : 0 ≤ j ∧ j < 6) :
    m.slot j = .ok (m.stack.getD j.toNat default) := by
  simp only [Machine.slot, h, and_self, if_true]

theorem slot_eq_fault (m : Machine) (j : Int) (h : ¬ (0 ≤ j ∧ j < 6)) :
    m.slot j = .error (Stop.fault Fault.slot_out_of_range) := by
  simp only [Machine.slot, h, if_false]

theorem shirley_bg_not_slot_fault (pp : List Point) :
    shirley_bg pp ≠ .error Fault.slot_out_of_range := by
  intro h
  rcases shirley_bg_error_cases pp _ h with ⟨_, hf⟩ | ⟨_, hf⟩ <;> cases hf

/-- An opcode other than a push reads or writes a slot outside the array exactly
when `stackPtr` is below the number of values the opcode works on. -/
theorem exec_op_slot_fault (E : Ext) (c : Int) (op : DtOp) (m : Machine)
    (h1 : -1 ≤ m.stackPtr) (h2 : m.stackPtr ≤ 5) :
    exec_op E c op m = .error (Stop.fault Fault.slot_out_of_range) ↔
      m.stackPtr + 1 < op_arity op := by
  by_cases hu : 0 ≤ m.stackPtr
  · have hs : 0 ≤ m.stackPtr ∧ m.stackPtr < 6 := ⟨hu, by omega⟩
    by_cases hb : 1 ≤ m.stackPtr
    · have hs1 : 0 ≤ m.stackPtr - 1 ∧ m.stackPtr - 1 < 6 := ⟨by omega, by omega⟩
      have hs2 : 0 ≤ m.stackPtr - 1 + 1 ∧ m.stackPtr - 1 + 1 < 6 := ⟨by omega, by omega⟩
      cases op <;>
        simp only [exec_op, bind, Except.bind, slot_eq_ok m _ hs, slot_eq_ok m _ hs1,
          slot_eq_ok m _ hs2, put_ok_of_bounds _ _ _ _ hs, put_ok_of_bounds _ _ _ _ hs1,
          put_ok_of_bounds _ _ _ _ hs2, op_arity]
      all_goals
        refine ⟨fun h => ?_, fun h => absurd h (by omega)⟩
        exfalso
        (repeat' split at h) <;> first
          | (cases h; done)
          | (rename_i heq
             obtain ⟨p, hp⟩ := combine_points_value E.is_eq 1 _ _
             rw [hp] at heq; cases heq)
          | (rename_i heq
             obtain ⟨p, hp⟩ := combine_points_value E.is_eq (-1) _ _
             rw [hp] at heq; cases heq)
          | (rename_i heq
             cases h
             exact shirley_bg_not_slot_fault _ heq)
    · have hs1 : ¬ (0 ≤ m.stackPtr - 1 ∧ m.stackPtr - 1 < 6) := by omega
      cases op <;>
        simp only [exec_op, bind, Except.bind, slot_eq_ok m _ hs, slot_eq_fault m _ hs1,
          put_ok_of_bounds _ _ _ _ hs, op_arity]
      all_goals first
        | exact ⟨fun _ => by omega, fun _ => trivial⟩
        | (refine ⟨fun h => ?_, fun h => absurd h (by omega)⟩
           exfalso
           (repeat' split at h) <;> first
             | (cases h; done)
             | (rename_i heq
                cases h
                exact shirley_bg_not_slot_fault _ heq))
  · have hs : ¬ (0 ≤ m.stackPtr ∧ m.stackPtr < 6) := by omega
    have hs1 : ¬ (0 ≤ m.stackPtr - 1 ∧ m.stackPtr - 1 < 6) := by omega
    cases op <;>
      simp only [exec_op, bind, Except.bind, slot_eq_fault m _ hs, slot_eq_fault m _ hs1,
        op_arity]
    all_goals first
      | exact ⟨fun _ => by omega, fun _ => trivial⟩
      | (refine ⟨fun h => ?_, fun h => absurd h (by omega)⟩
         cases h)

/-- A push never reads or writes a slot outside the array: it throws "stack
overflow" before it touches the slot above slot 5. -/
theorem exec_number_not_slot_fault (numbers : List ℚ) (m : Machine) (o : Option Int)
    (h1 : -1 ≤ m.stackPtr) :
    exec_number numbers m o ≠ .error (Stop.fault Fault.slot_out_of_range) := by
  intro h
  unfold exec_number at h
  by_cases hfull : m.stackPtr + 1 ≥ 6
  · simp [hfull] at h
  · have hs : 0 ≤ m.stackPtr + 1 ∧ m.stackPtr + 1 < 6 := ⟨by omega, by omega⟩
    simp only [hfull, if_false, bind, Except.bind, slot_eq_ok m _ hs,
      put_ok_of_bounds _ _ _ _ hs] at h
    (repeat' split at h) <;> cases h

theorem get_data_error {F : List Data} {n : Int} {s : Stop} (h : get_data F n = .error s) :
    s = Stop.error (ExecuteError.no_such_dataset n) := by
  unfold get_data at h
  split at h
  · cases h
  · cases h; rfl

theorem exec_dataset_not_slot_fault (F : List Data) (m : Machine) (o : Option Int)
    (h1 : -1 ≤ m.stackPtr) :
    exec_dataset F m o ≠ .error (Stop.fault Fault.slot_out_of_range) := by
  intro h
  unfold exec_dataset at h
  by_cases hfull : m.stackPtr + 1 ≥ 6
  · simp [hfull] at h
  · have hs : 0 ≤ m.stackPtr + 1 ∧ m.stackPtr + 1 < 6 := ⟨by omega, by omega⟩
    simp only [hfull, if_false, bind, Except.bind, slot_eq_ok m _ hs,
      put_ok_of_bounds _ _ _ _ hs] at h
    (repeat' split at h) <;> first
      | (cases h; done)
      | (rename_i heq; cases get_data_error heq; cases h)

theorem op_arity_push {op : DtOp} (h : op = DtOp.OP_NUMBER ∨ op = DtOp.OP_DATASET) :
    op_arity op = 0 := by
  rcases h with h | h <;> subst h <;> rfl

/-- An opcode reached with fewer live values than it works on reads a slot below
the array, whatever follows. -/
theorem run_code_underflow (E : Ext) (F : List Data) (numbers : List ℚ) (m : Machine)
    (c : Int) (post : List Int) (h1 : -1 ≤ m.stackPtr) (h2 : m.stackPtr ≤ 5)
    (hc : m.stackPtr + 1 < op_arity (E.op_of c)) :
    run_code E F numbers m (c :: post) = .error (Stop.fault Fault.slot_out_of_range) := by
  have hn : E.op_of c ≠ DtOp.OP_NUMBER := by
    intro hh; rw [op_arity_push (Or.inl hh)] at hc; omega
  have hd : E.op_of c ≠ DtOp.OP_DATASET := by
    intro hh; rw [op_arity_push (Or.inr hh)] at hc; omega
  rw [run_code_other hn hd, (exec_op_slot_fault E c _ m h1 h2).mpr hc]
  rfl

/-- A run that accesses a slot outside the array has reached an opcode with
fewer live values than the opcode works on. -/
theorem run_code_slot_fault_split (E : Ext) (F : List Data) (numbers : List ℚ) :
    ∀ (n : Nat) (code : List Int), code.length ≤ n → ∀ (m : Machine),
      -1 ≤ m.stackPtr → m.stackPtr ≤ 5 →
      run_code E F numbers m code = .error (Stop.fault Fault.slot_out_of_range) →
      ∃ (pre : List Int) (c : Int) (post : List Int) (m1 : Machine),
        code = pre ++ c :: post ∧ run_code E F numbers m pre = .ok m1 ∧
        m1.stackPtr + 1 < op_arity (E.op_of c) := by
  intro n
  induction n with
  | zero =>
    intro code hlen m _ _ h
    have : code = [] := List.length_eq_zero.mp (Nat.le_zero.mp hlen)
    subst this
    simp only [run_code] at h
    cases h
  | succ n ih =>
    intro code hlen m hm1 hm2 h
    cases code with
    | nil => simp only [run_code] at h; cases h
    | cons c code =>
      by_cases h1 : E.op_of c = DtOp.OP_NUMBER
      · cases code with
        | nil =>
          rw [run_code_number_end h1] at h
          exact absurd h (exec_number_not_slot_fault numbers m none hm1)
        | cons idx code =>
          rw [run_code_number h1] at h
          cases hx : exec_number numbers m (some idx) with
          | error e =>
            rw [hx] at h
            have he : e = Stop.fault Fault.slot_out_of_range := by
              simpa [Except.bind] using h
            rw [he] at hx
            exact absurd hx (exec_number_not_slot_fault numbers m (some idx) hm1)
          | ok m2 =>
            rw [hx] at h
            have hk := exec_number_ok hx
            obtain ⟨pre, c1, post, m3, hcode, hrun, hsp⟩ :=
              ih code (by simp at hlen; omega) m2 (by omega) (by omega) h
            refine ⟨c :: idx :: pre, c1, post, m3, by rw [hcode]; rfl, ?_, hsp⟩
            rw [run_code_number h1, hx]
            exact hrun
      · by_cases h2 : E.op_of c = DtOp.OP_DATASET
        · cases code with
          | nil =>
            rw [run_code_dataset_end h2] at h
            exact absurd h (exec_dataset_not_slot_fault F m none hm1)
          | cons idx code =>
            rw [run_code_dataset h2] at h
            cases hx : exec_dataset F m (some idx) with
            | error e =>
              rw [hx] at h
              have he : e = Stop.fault Fault.slot_out_of_range := by
                simpa [Except.bind] using h
              rw [he] at hx
              exact absurd hx (exec_dataset_not_slot_fault F m (some idx) hm1)
            | ok m2 =>
              rw [hx] at h
              have hk := exec_dataset_ok hx
              obtain ⟨pre, c1, post, m3, hcode, hrun, hsp⟩ :=
                ih code (by simp at hlen; omega) m2 (by omega) (by omega) h
              refine ⟨c :: idx :: pre, c1, post, m3, by rw [hcode]; rfl, ?_, hsp⟩
              rw [run_code_dataset h2, hx]
              exact hrun
        · rw [run_code_other h1 h2] at h
          cases hx : exec_op E c (E.op_of c) m with
          | error e =>
            rw [hx] at h
            have he : e = Stop.fault Fault.slot_out_of_range := by
              simpa [Except.bind] using h
            rw [he] at hx
            exact ⟨[], c, code, m, rfl, rfl, (exec_op_slot_fault E c _ m hm1 hm2).mp hx⟩
          | ok m2 =>
            rw [hx] at h
            have hk := exec_op_stackPtr E c _ m m2 hx
            have hg := exec_op_stackPtr_ge E c _ m m2 hm1 hx
            obtain ⟨pre, c1, post, m3, hcode, hrun, hsp⟩ :=
              ih code (by simp at hlen; omega) m2 hg (by omega) h
            refine ⟨c :: pre, c1, post, m3, by rw [hcode]; rfl, ?_, hsp⟩
            rw [run_code_other h1 h2, hx]
            exact hrun

/-- The final part of `run_dt` touches no slot outside the array. -/
theorem commit_not_slot_fault (E : Ext) (out : Int) (F : List Data) (top : DtStackItem) :
    (commit E out F top).1 ≠ Outcome.stopped (Stop.fault Fault.slot_out_of_range) := by
  intro h
  unfold commit at h
  simp only at h
  split at h
  · rename_i s heq
    simp only [Outcome.stopped.injEq] at h
    subst h
    cases get_data_error heq
  · (repeat' split at h) <;> simp at h

/-- C17 (counterexample): the program consisting of the single opcode negate
applies a unary opcode to the empty stack (`stackPtr` at index `-1`); the
opcode reads the slot at index `-1`, outside the six-slot array, and `run_dt`
ends there.  Likewise "push number, add" applies a binary opcode to one live
value and reads the slot at index `-1`. -/
theorem run_dt_reads_below_stack :
    Machine.init.stackPtr = -1 ∧
    Machine.init.slot (-1) = .error (Stop.fault Fault.slot_out_of_range) ∧
    exec_op sample_ext 2 DtOp.OP_NEG Machine.init =
      .error (Stop.fault Fault.slot_out_of_range) ∧
    run_dt sample_ext ⟨[2], []⟩ 0 [] =
      (Outcome.stopped (Stop.fault Fault.slot_out_of_range), []) ∧
    run_dt sample_ext ⟨[0, 0, 3], [1]⟩ 0 [] =
      (Outcome.stopped (Stop.fault Fault.slot_out_of_range), []) :=
  ⟨rfl, rfl, rfl, rfl, rfl⟩

/-- C17 (amended): for every opcode sequence, target and dataset collection,
`run_dt` reads or writes a stack slot with an index outside `0..5` exactly when
it reaches an opcode that finds fewer live values than it works on (one for
negate, merge-sum, merge-avg and background-estimate, two for add, sub, mul and
after-and; a push, `and` and the default case need none).  In every other run,
however it ends, every stack slot read or written has an index in `0..5`; in
particular a push with six live values throws before it touches a slot. -/
theorem run_dt_slot_access (E : Ext) (vm : VMData) (out : Int) (F : List Data) :
    (run_dt E vm out F).1 = Outcome.stopped (Stop.fault Fault.slot_out_of_range) ↔
      ∃ (pre : List Int) (c : Int) (post : List Int) (m : Machine),
        vm.code = pre ++ c :: post ∧
        run_code E F vm.numbers Machine.init pre = .ok m ∧
        m.stackPtr + 1 < op_arity (E.op_of c) := by
  constructor
  · intro h
    cases hrun : run_code E F vm.numbers Machine.init vm.code with
    | error s =>
      unfold run_dt at h
      simp only [hrun, Outcome.stopped.injEq] at h
      rw [h] at hrun
      exact run_code_slot_fault_split E F vm.numbers vm.code.length vm.code (le_refl _)
        Machine.init (by simp [Machine.init]) (by simp [Machine.init]) hrun
    | ok m =>
      exfalso
      unfold run_dt at h
      simp only [hrun] at h
      by_cases hsp : m.stackPtr ≠ 0
      · simp [hsp] at h
      · simp only [hsp, if_false] at h
        exact commit_not_slot_fault E out F _ h
  · rintro ⟨pre, c, post, m, hcode, hrun, hc⟩
    have hr := run_code_stackPtr_range E F vm.numbers pre.length pre (le_refl _) Machine.init m
      (by simp [Machine.init]) (by simp [Machine.init]) hrun
    have h := run_code_append E F vm.numbers pre.length pre (le_refl _) Machine.init m
      (c :: post) hrun
    rw [run_code_underflow E F vm.numbers m c post hr.1 hr.2 hc, ← hcode] at h
    unfold run_dt
    simp only [h]

/-- Witness for C17 (amended): "push dataset, after-and" reaches the binary
opcode after-and with one live value, so a slot outside the array is read. -/
theorem run_dt_slot_access_witness :
    (run_dt sample_ext ⟨[1, 0, 10], []⟩ 0 [⟨[⟨1, 1, 1, true⟩], "a"⟩]).1 =
      Outcome.stopped (Stop.fault Fault.slot_out_of_range) :=
  (run_dt_slot_access sample_ext ⟨[1, 0, 10], []⟩ 0 [⟨[⟨1, 1, 1, true⟩], "a"⟩]).mpr
    ⟨[1, 0], 10, [],
     ({ stack := (List.replicate 6 default).set 0
          (⟨false, 0, [⟨1, 1, 1, true⟩], "a"⟩ : DtStackItem),
        stackPtr := 0 } : Machine),
     rfl, rfl, by decide⟩

/-! ### Rounding to `double` -/

theorem round_half_even_down (r : ℚ) (f : ℤ) (h1 : (f : ℚ) ≤ r) (h2 : r - f < 1 / 2) :
    round_half_even r = f := by
  have hf : ⌊r⌋ = f := Int.floor_eq_iff.mpr ⟨h1, by linarith⟩
  simp only [round_half_even, hf, h2, if_true]

theorem round_half_even_up (r : ℚ) (f : ℤ) (h1 : 1 / 2 < r - f) (h2 : r < f + 1) :
    round_half_even r = f + 1 := by
  have hf : ⌊r⌋ = f := Int.floor_eq_iff.mpr ⟨by linarith, h2⟩
  simp only [round_half_even, hf, h1, if_true, not_lt.mpr (le_of_lt h1), if_false]

theorem round_half_even_tie (r : ℚ) (f : ℤ) (h : r - f = 1 / 2) :
    round_half_even r = if f % 2 = 0 then f else f + 1 := by
  have hf : ⌊r⌋ = f := Int.floor_eq_iff.mpr ⟨by linarith, by linarith⟩
  simp only [round_half_even, hf, h, lt_irrefl, if_false]

/-- Rounding a number whose magnitude lies in `[2 ^ e, 2 ^ (e + 1))`, with `e`
in the normal range: the result is a multiple of `2 ^ (e - 52)`. -/
theorem binary64_eq (q : ℚ) (e m : ℤ) (he : -1022 ≤ e) (hlo : (2 : ℚ) ^ e ≤ |q|)
    (hhi : |q| < (2 : ℚ) ^ (e + 1)) (hm : round_half_even (q / 2 ^ (e - 52)) = m) :
    binary64 q = (m : ℚ) * 2 ^ (e - 52) := by
  have hpos : 0 < |q| := lt_of_lt_of_le (by positivity) hlo
  have hq : q ≠ 0 := abs_pos.mp hpos
  have hlog : Int.log 2 |q| = e := by
    have h1 : e ≤ Int.log 2 |q| :=
      (Int.zpow_le_iff_le_log (by norm_num) hpos).mp (by exact_mod_cast hlo)
    have h2 : Int.log 2 |q| < e + 1 :=
      (Int.lt_zpow_iff_log_lt (by norm_num) hpos).mp (by exact_mod_cast hhi)
    omega
  simp only [binary64, hq, if_false, hlog, max_eq_left he, hm]


/-! ### Rounded arithmetic: `merge_same_x` -/

theorem absorb_fl_id (a b : Point) : a.absorb_fl id b = a.absorb b := rfl

theorem divide_fl_id (avg : Bool) (c : Nat) (p : Point) :
    p.divide_fl id avg c = p.divide avg c := rfl

theorem merge_loop_fl_id (is_eq : ℚ → ℚ → Bool) (avg : Bool) :
    ∀ (i : Nat) (pp : List Point) (c : Nat) (x0 : ℚ),
      merge_loop_fl id is_eq avg i pp c x0 = merge_loop is_eq avg i pp c x0 := by
  intro i
  induction i with
  | zero => intro pp c x0; rfl
  | succ i ih =>
    intro pp c x0
    simp only [merge_loop_fl, merge_loop, ih, absorb_fl_id, divide_fl_id]

/-- With no rounding the rounded `merge_same_x` is the exact one. -/
theorem merge_same_x_fl_id (is_eq : ℚ → ℚ → Bool) (pp : List Point) (avg : Bool) :
    merge_same_x_fl id is_eq pp avg = merge_same_x is_eq pp avg :=
  merge_loop_fl_id is_eq avg _ pp 1 0

theorem merge_loop_fl_length_le (rnd : ℚ → ℚ) (is_eq : ℚ → ℚ → Bool) (avg : Bool) :
    ∀ (i : Nat) (pp : List Point) (c : Nat) (x0 : ℚ),
      (merge_loop_fl rnd is_eq avg i pp c x0).length ≤ pp.length := by
  intro i
  induction i with
  | zero => intro pp c x0; exact le_refl _
  | succ i ih =>
    intro pp c x0
    simp only [merge_loop_fl]
    generalize (if c = 1 then (pp.getD (i + 1) default).x else x0) = x1
    have hle : ((pp.set i ((pp.getD i default).absorb_fl rnd
        (pp.getD (i + 1) default))).eraseIdx (i + 1)).length ≤ pp.length := by
      refine le_trans (List.length_eraseIdx_le _ _) ?_
      simp
    by_cases he : is_eq (pp.getD i default).x x1 = true
    · simp only [he, if_true]
      by_cases hi : 0 < i
      · simp only [hi, if_true]
        exact le_trans (ih _ _ _) hle
      · simp only [hi, if_false]
        by_cases hc : 1 < c + 1
        · simp only [hc, if_true, List.length_set]
          exact hle
        · simp only [hc, if_false]
          exact hle
    · simp only [he, Bool.false_eq_true, if_false]
      by_cases hc : 1 < c
      · simp only [hc, if_true]
        refine le_trans (ih _ _ _) ?_
        simp
      · simp only [hc, if_false]
        exact ih _ _ _

theorem merge_loop_fl_ne_nil (rnd : ℚ → ℚ) (is_eq : ℚ → ℚ → Bool) (avg : Bool) :
    ∀ (i : Nat) (pp : List Point) (c : Nat) (x0 : ℚ), i < pp.length →
      merge_loop_fl rnd is_eq avg i pp c x0 ≠ [] := by
  intro i
  induction i with
  | zero =>
    intro pp c x0 h
    simp only [merge_loop_fl]
    exact List.ne_nil_of_length_pos h
  | succ i ih =>
    intro pp c x0 h
    simp only [merge_loop_fl]
    generalize (if c = 1 then (pp.getD (i + 1) default).x else x0) = x1
    have hlen : ((pp.set i ((pp.getD i default).absorb_fl rnd
        (pp.getD (i + 1) default))).eraseIdx (i + 1)).length = pp.length - 1 := by
      rw [List.length_eraseIdx]
      simp [h]
    by_cases he : is_eq (pp.getD i default).x x1 = true
    · simp only [he, if_true]
      by_cases hi : 0 < i
      · simp only [hi, if_true]
        exact ih _ _ _ (by rw [hlen]; omega)
      · simp only [hi, if_false]
        by_cases hc : 1 < c + 1
        · simp only [hc, if_true]
          apply List.ne_nil_of_length_pos
          rw [List.length_set, hlen]; omega
        · simp only [hc, if_false]
          apply List.ne_nil_of_length_pos
          rw [hlen]; omega
    · simp only [he, Bool.false_eq_true, if_false]
      by_cases hc : 1 < c
      · simp only [hc, if_true]
        exact ih _ _ _ (by rw [List.length_set]; omega)
      · simp only [hc, if_false]
        exact ih _ _ _ (by omega)

/-- In any arithmetic `merge_same_x` returns at most as many points as it is
given, and no points only when it is given none. -/
theorem merge_same_x_fl_length (rnd : ℚ → ℚ) (is_eq : ℚ → ℚ → Bool) (pp : List Point)
    (avg : Bool) :
    (merge_same_x_fl rnd is_eq pp avg).length ≤ pp.length ∧
    (merge_same_x_fl rnd is_eq pp avg = [] → pp = []) := by
  refine ⟨merge_loop_fl_length_le rnd is_eq avg _ pp 1 0, ?_⟩
  intro h
  by_contra hne
  have hpos := List.length_pos.mpr hne
  exact merge_loop_fl_ne_nil rnd is_eq avg (pp.length - 1) pp 1 0 (by omega) h

/-! ### Sample values: three points at `10922.7` -/

/-- The `double` written `10922.7`. -/
theorem binary64_x_sample :
    binary64 (3002408914177229 / 274877906944) = (3002408914177229 / 274877906944) := by
  rw [binary64_eq _ (13) (6004817828354458) (by norm_num)
    (by rw [abs_of_pos (by norm_num)]; norm_num)
    (by rw [abs_of_pos (by norm_num)]; norm_num)
    (round_half_even_down _ (6004817828354458) (by norm_num) (by norm_num))]
  norm_num

/-- The next `double` above `10922.7`. -/
theorem binary64_x_next :
    binary64 (6004817828354459 / 549755813888) = (6004817828354459 / 549755813888) := by
  rw [binary64_eq _ (13) (6004817828354459) (by norm_num)
    (by rw [abs_of_pos (by norm_num)]; norm_num)
    (by rw [abs_of_pos (by norm_num)]; norm_num)
    (round_half_even_down _ (6004817828354459) (by norm_num) (by norm_num))]
  norm_num

theorem binary64_x_twice :
    binary64 (3002408914177229 / 274877906944 + 3002408914177229 / 274877906944) =
      (3002408914177229 / 137438953472) := by
  rw [binary64_eq _ (14) (6004817828354458) (by norm_num)
    (by rw [abs_of_pos (by norm_num)]; norm_num)
    (by rw [abs_of_pos (by norm_num)]; norm_num)
    (round_half_even_down _ (6004817828354458) (by norm_num) (by norm_num))]
  norm_num

/-- The sum of three times `10922.7` lies half-way between two `double`s and is
rounded upwards. -/
theorem binary64_x_thrice :
    binary64 (3002408914177229 / 274877906944 + 3002408914177229 / 137438953472) =
      (1125903342816461 / 34359738368) := by
  rw [binary64_eq _ (15) (4503613371265844) (by norm_num)
    (by rw [abs_of_pos (by norm_num)]; norm_num)
    (by rw [abs_of_pos (by norm_num)]; norm_num)
    ((round_half_even_tie _ (4503613371265843) (by norm_num)).trans (by norm_num))]
  norm_num

/-- The rounded sum divided by three is the next `double` above `10922.7`. -/
theorem binary64_x_mean :
    binary64 (1125903342816461 / 34359738368 / 3) = (6004817828354459 / 549755813888) := by
  rw [binary64_eq _ (13) (6004817828354459) (by norm_num)
    (by rw [abs_of_pos (by norm_num)]; norm_num)
    (by rw [abs_of_pos (by norm_num)]; norm_num)
    ((round_half_even_up _ (6004817828354458) (by norm_num) (by norm_num)).trans
      (by norm_num))]
  norm_num

theorem binary64_one :
    binary64 1 = 1 := by
  rw [binary64_eq _ (0) (4503599627370496) (by norm_num)
    (by rw [abs_of_pos (by norm_num)]; norm_num)
    (by rw [abs_of_pos (by norm_num)]; norm_num)
    (round_half_even_down _ (4503599627370496) (by norm_num) (by norm_num))]
  norm_num

theorem binary64_one_add_one :
    binary64 (1 + 1) = 2 := by
  rw [binary64_eq _ (1) (4503599627370496) (by norm_num)
    (by rw [abs_of_pos (by norm_num)]; norm_num)
    (by rw [abs_of_pos (by norm_num)]; norm_num)
    (round_half_even_down _ (4503599627370496) (by norm_num) (by norm_num))]
  norm_num

theorem binary64_one_add_two :
    binary64 (1 + 2) = 3 := by
  rw [binary64_eq _ (1) (6755399441055744) (by norm_num)
    (by rw [abs_of_pos (by norm_num)]; norm_num)
    (by rw [abs_of_pos (by norm_num)]; norm_num)
    (round_half_even_down _ (6755399441055744) (by norm_num) (by norm_num))]
  norm_num

/-- On three points at `10922.7` followed by a point at the next `double`, the
rounded `merge_same_x` (sum mode) leaves two points, both at that next `double`,
for every `is_eq` that relates `10922.7` to itself and not to its successor. -/
theorem merge_same_x_fl_sample (is_eq : ℚ → ℚ → Bool)
    (h1 : is_eq (3002408914177229 / 274877906944) (3002408914177229 / 274877906944) = true)
    (h2 : is_eq (3002408914177229 / 274877906944) (6004817828354459 / 549755813888) = false) :
    merge_same_x_fl binary64 is_eq
      [⟨3002408914177229 / 274877906944, 1, 1, true⟩,
       ⟨3002408914177229 / 274877906944, 1, 1, true⟩,
       ⟨3002408914177229 / 274877906944, 1, 1, true⟩,
       ⟨6004817828354459 / 549755813888, 1, 1, true⟩] false =
      [⟨6004817828354459 / 549755813888, 3, 3, true⟩,
       ⟨6004817828354459 / 549755813888, 1, 1, true⟩] := by
  simp [merge_same_x_fl, merge_loop_fl, Point.absorb_fl, Point.divide_fl, h1, h2,
    binary64_x_twice, binary64_x_thrice, binary64_x_mean, binary64_one_add_one,
    binary64_one_add_two]

/-- C6 (counterexample): in double arithmetic the output of `merge_same_x` need
not have strictly increasing `x`.  The four points have `x = 10922.7` three
times and then the next `double` above it (all coordinates are `double`s, the
sequence is sorted by `x`).  The three equal points are merged: their `x` sum
up to a value that is rounded upwards, and the division by `count_same = 3`
gives the next `double` above `10922.7`, the very `x` of the fourth point.  So
the output has two points with equal `x`, with `is_eq` exact as well as with
`is_eq` the comparison up to `1e-12`. -/
theorem merge_same_x_fl_equal_x :
    SortedByX
      [⟨3002408914177229 / 274877906944, 1, 1, true⟩,
       ⟨3002408914177229 / 274877906944, 1, 1, true⟩,
       ⟨3002408914177229 / 274877906944, 1, 1, true⟩,
       ⟨6004817828354459 / 549755813888, 1, 1, true⟩] ∧
    binary64 (3002408914177229 / 274877906944) = 3002408914177229 / 274877906944 ∧
    binary64 (6004817828354459 / 549755813888) = 6004817828354459 / 549755813888 ∧
    binary64 1 = 1 ∧
    merge_same_x_fl binary64 exact_eq
      [⟨3002408914177229 / 274877906944, 1, 1, true⟩,
       ⟨3002408914177229 / 274877906944, 1, 1, true⟩,
       ⟨3002408914177229 / 274877906944, 1, 1, true⟩,
       ⟨6004817828354459 / 549755813888, 1, 1, true⟩] false =
      [⟨6004817828354459 / 549755813888, 3, 3, true⟩,
       ⟨6004817828354459 / 549755813888, 1, 1, true⟩] ∧
    merge_same_x_fl binary64 (tol_eq (1 / 1000000000000))
      [⟨3002408914177229 / 274877906944, 1, 1, true⟩,
       ⟨3002408914177229 / 274877906944, 1, 1, true⟩,
       ⟨3002408914177229 / 274877906944, 1, 1, true⟩,
       ⟨6004817828354459 / 549755813888, 1, 1, true⟩] false =
      [⟨6004817828354459 / 549755813888, 3, 3, true⟩,
       ⟨6004817828354459 / 549755813888, 1, 1, true⟩] ∧
    ¬ StrictByX
      [⟨6004817828354459 / 549755813888, 3, 3, true⟩,
       ⟨6004817828354459 / 549755813888, 1, 1, true⟩] :=
  ⟨by norm_num [SortedByX], binary64_x_sample, binary64_x_next, binary64_one,
   merge_same_x_fl_sample exact_eq (by simp [exact_eq]) (by norm_num [exact_eq]),
   merge_same_x_fl_sample (tol_eq (1 / 1000000000000)) (by simp [tol_eq])
     (by
       have h : ¬ (|(3002408914177229 / 274877906944 : ℚ) - 6004817828354459 / 549755813888| ≤
           1 / 1000000000000) := by
         rw [abs_of_neg (by norm_num)]; norm_num
       simp only [tol_eq, h, decide_False]),
   by norm_num [StrictByX]⟩

/-- C6 (amended): for every point sequence `P` sorted by `x` and each mode, the
output of `merge_same_x` has length at most the length of `P` and is empty only
if `P` is empty, in every arithmetic (whatever the rounding `rnd` of the sums
and quotients and whatever `is_eq`); and in exact arithmetic (no rounding), with
`is_eq` the comparison up to a tolerance `eps ≥ 0`, the output has strictly
increasing (hence pairwise distinct) `x` values. -/
theorem merge_same_x_fl_output (eps : ℚ) (heps : 0 ≤ eps) (pp : List Point) (avg : Bool)
    (hs : SortedByX pp) :
    (∀ (rnd : ℚ → ℚ) (is_eq : ℚ → ℚ → Bool),
      (merge_same_x_fl rnd is_eq pp avg).length ≤ pp.length ∧
      (merge_same_x_fl rnd is_eq pp avg = [] → pp = [])) ∧
    StrictByX (merge_same_x_fl id (tol_eq eps) pp avg) := by
  refine ⟨fun rnd is_eq => merge_same_x_fl_length rnd is_eq pp avg, ?_⟩
  rw [merge_same_x_fl_id]
  exact (merge_same_x_strict eps heps pp avg hs).1

/-- Witness for C6 (amended): with tolerance `1/2` the sorted sequence with
`x = 1, 5/4, 3` merges into strictly increasing `x` in exact arithmetic, and
into at most three points in double arithmetic. -/
theorem merge_same_x_fl_output_witness :
    (0 : ℚ) ≤ 1 / 2 ∧
    SortedByX [⟨1, 1, 1, false⟩, ⟨5 / 4, 2, 1, true⟩, ⟨3, 5, 1, false⟩] ∧
    StrictByX (merge_same_x_fl id (tol_eq (1 / 2))
      [⟨1, 1, 1, false⟩, ⟨5 / 4, 2, 1, true⟩, ⟨3, 5, 1, false⟩] true) ∧
    (merge_same_x_fl binary64 (tol_eq (1 / 2))
      [⟨1, 1, 1, false⟩, ⟨5 / 4, 2, 1, true⟩, ⟨3, 5, 1, false⟩] true).length ≤ 3 :=
  ⟨by norm_num, by norm_num [SortedByX],
   (merge_same_x_fl_output (1 / 2) (by norm_num)
      [⟨1, 1, 1, false⟩, ⟨5 / 4, 2, 1, true⟩, ⟨3, 5, 1, false⟩] true
      (by norm_num [SortedByX])).2,
   ((merge_same_x_fl_output (1 / 2) (by norm_num)
      [⟨1, 1, 1, false⟩, ⟨5 / 4, 2, 1, true⟩, ⟨3, 5, 1, false⟩] true
      (by norm_num [SortedByX])).1 binary64 (tol_eq (1 / 2))).1⟩

/-! ### `shirley_bg` with rounded operations -/

end Fityk
